import Mathlib

/-!
Verification development for the PAN configuration-log relationship engine
(`parse.py`).  The engine scans a flat-text firewall configuration dump and,
for a list of target address-object names, collects per-address facts:
matching lines, direct and indirect security-rule references, address-group
memberships, NAT/service-group references, device-group scopes, redundant
(same IP/netmask) addresses.

Strings are modelled as `List Char`.  Python dicts are modelled as
insertion-ordered association lists (overwrite keeps the original key
position), Python sets as insertion-ordered duplicate-free lists (the
engine's contract never depends on set iteration order; every ordered
sequence of the contract is built by list appends in file order).
-/

abbrev Str := List Char

/-- Python regular-expression class `\s` restricted to ASCII, which also
matches the whitespace stripped by `str.strip()` on the inputs concerned. -/
def isSpace (c : Char) : Bool :=
  c = ' ' || c = '\t' || c = '\n' || c = '\r' || c = '\x0b' || c = '\x0c'

/-- Python `str.strip()`: drop leading and trailing whitespace. -/
def pstrip (s : Str) : Str :=
  ((s.dropWhile isSpace).reverse.dropWhile isSpace).reverse

/-- Index of the first occurrence of `sep` as a contiguous substring, as used
by Python `in` / `str.split`. -/
def findSub (sep : Str) : Str → Option Nat
  | [] => if sep.isEmpty then some 0 else none
  | c :: rest =>
      if sep.isPrefixOf (c :: rest) then some 0
      else (findSub sep rest).map (· + 1)

/-- Python `sep in s` substring test. -/
def containsSub (sep s : Str) : Bool := (findSub sep s).isSome

/-- Text strictly before the first occurrence of `sep`; the whole string when
`sep` does not occur (Python `s.split(sep)[0]`). -/
def beforeFirst (sep s : Str) : Str :=
  match findSub sep s with
  | some i => s.take i
  | none => s

/-- Text strictly after the first occurrence of `sep` (empty when `sep` does
not occur). -/
def afterFirst (sep s : Str) : Str :=
  match findSub sep s with
  | some i => s.drop (i + sep.length)
  | none => []

/-- Python `s.split(sep)[1]`: the segment between the first and the second
occurrence of `sep` (the tail after the first occurrence when there is no
second one).  Only used under a guard that `sep` occurs in `s`. -/
def segAfter (sep s : Str) : Str :=
  beforeFirst sep (afterFirst sep s)

/-- Python `definition.split()` (whitespace tokenization), auxiliary. -/
def wsSplitAux : Str → Str → List Str
  | [], acc => if acc.isEmpty then [] else [acc.reverse]
  | c :: rest, acc =>
      if isSpace c then
        if acc.isEmpty then wsSplitAux rest [] else acc.reverse :: wsSplitAux rest []
      else wsSplitAux rest (c :: acc)

/-- Python `definition.split()`: whitespace-separated tokens, no empties. -/
def wsSplit (s : Str) : List Str := wsSplitAux s []

/-! ### Association lists (Python `dict`) and insertion-ordered sets -/

/-- Lookup in an association list (first entry wins; keys are unique by
construction, mirroring a Python dict). -/
def alookup {α : Type} : List (Str × α) → Str → Option α
  | [], _ => none
  | (k, v) :: rest, a => if k = a then some v else alookup rest a

/-- Replace the value stored under a key, in place (applied only when the key
occurs, in which case it occurs exactly once). -/
def updAll {α : Type} (k : Str) (g : α → α) : List (Str × α) → List (Str × α)
  | [] => []
  | p :: rest => if p.1 = k then (k, g p.2) :: updAll k g rest else p :: updAll k g rest

/-- Python `d[k] = v`: overwrite in place when the key exists (keeping its
position, as dicts do), else append at the end. -/
def dinsert {α : Type} (d : List (Str × α)) (k : Str) (v : α) : List (Str × α) :=
  if (alookup d k).isSome then updAll k (fun _ => v) d
  else d ++ [(k, v)]

/-- Python `set.add`, modelled on an insertion-ordered duplicate-free list. -/
def sadd (s : List Str) (x : Str) : List Str :=
  if x ∈ s then s else s ++ [x]

/-! ### Pattern matchers

Each compiled pattern of `PATTERNS` in `parse.py` becomes a hand-rolled
matcher with exactly the semantics of `re.search` on that pattern: `searchAll`
tries every start offset left to right, and the element-wise matchers below
are exact for these patterns because `\S+`/`[\d\.]+`/`[^"]+` runs are
delimited by characters the following pattern element requires, so greedy
matching never needs to backtrack (the one exception, `\s+` before `(.+)`, is
handled explicitly in `staticTail`). -/

/-- Try a match at every suffix, leftmost first (`re.search` semantics). -/
def searchAll {α : Type} (f : Str → Option α) : Str → Option α
  | [] => f []
  | c :: rest =>
      match f (c :: rest) with
      | some a => some a
      | none => searchAll f rest

/-- Match a literal and return the remaining suffix. -/
def lit (w : Str) (s : Str) : Option Str :=
  if w.isPrefixOf s then some (s.drop w.length) else none

/-- Match `\s+` (at least one whitespace character, consume the maximal run). -/
def ws1 (s : Str) : Option Str :=
  match s with
  | c :: _ => if isSpace c then some (s.dropWhile isSpace) else none
  | [] => none

/-- Match `(\S+)`: a maximal nonempty run of non-whitespace, captured. -/
def tok (s : Str) : Option (Str × Str) :=
  let t := s.takeWhile (fun c => !isSpace c)
  if t.isEmpty then none else some (t, s.drop t.length)

/-- Match `"([^"]+)"`: an opening quote, a nonempty capture up to the next
quote, and that closing quote. -/
def quoted (s : Str) : Option Str :=
  match s with
  | '"' :: rest =>
      let cap := rest.takeWhile (fun c => c ≠ '"')
      if cap.isEmpty then none
      else match rest.drop cap.length with
        | '"' :: _ => some cap
        | _ => none
  | _ => none

/-- Match `\s+(.+)` at the end of a pattern, with regex backtracking: the
greedy `\s+` first takes the maximal whitespace run; if nothing remains for
`.+` it gives back one character (which `.` then matches). -/
def staticTail (s : Str) : Option Str :=
  let w := s.takeWhile isSpace
  if w.isEmpty then none
  else
    let r := s.drop w.length
    if !r.isEmpty then some r
    else if w.length ≥ 2 then some (w.drop (w.length - 1))
    else none

/-- Pattern `security-rule\s+"([^"]+)"` at one position. -/
def mSecRuleQuotedAt (s : Str) : Option Str :=
  match lit ("security-rule".toList) s with
  | none => none
  | some s =>
    match ws1 s with
    | none => none
    | some s => quoted s

/-- Pattern `security-rule\s+(\S+)` at one position. -/
def mSecRuleUnquotedAt (s : Str) : Option Str :=
  match lit ("security-rule".toList) s with
  | none => none
  | some s =>
    match ws1 s with
    | none => none
    | some s => (tok s).map (·.1)

/-- Pattern `security\s+rules\s+"([^"]+)"` at one position. -/
def mSecRulesQuotedAt (s : Str) : Option Str :=
  match lit ("security".toList) s with
  | none => none
  | some s =>
    match ws1 s with
    | none => none
    | some s =>
      match lit ("rules".toList) s with
      | none => none
      | some s =>
        match ws1 s with
        | none => none
        | some s => quoted s

/-- Pattern `security\s+rules\s+(\S+)` at one position. -/
def mSecRulesUnquotedAt (s : Str) : Option Str :=
  match lit ("security".toList) s with
  | none => none
  | some s =>
    match ws1 s with
    | none => none
    | some s =>
      match lit ("rules".toList) s with
      | none => none
      | some s =>
        match ws1 s with
        | none => none
        | some s => (tok s).map (·.1)

/-- Pattern `device-group\s+(\S+)` at one position. -/
def mDeviceGroupAt (s : Str) : Option Str :=
  match lit ("device-group".toList) s with
  | none => none
  | some s =>
    match ws1 s with
    | none => none
    | some s => (tok s).map (·.1)

/-- Pattern `nat-rule\s+(\S+)` at one position. -/
def mNatRuleAt (s : Str) : Option Str :=
  match lit ("nat-rule".toList) s with
  | none => none
  | some s =>
    match ws1 s with
    | none => none
    | some s => (tok s).map (·.1)

/-- Pattern `service-group\s+(\S+)` at one position. -/
def mServiceGroupAt (s : Str) : Option Str :=
  match lit ("service-group".toList) s with
  | none => none
  | some s =>
    match ws1 s with
    | none => none
    | some s => (tok s).map (·.1)

/-- Pattern `set\s+shared\s+address-group\s+(\S+)\s+static\s+(.+)` at one
position; captures (group name, member-list text). -/
def mAGSharedAt (s : Str) : Option (Str × Str) :=
  match lit ("set".toList) s with
  | none => none
  | some s =>
    match ws1 s with
    | none => none
    | some s =>
      match lit ("shared".toList) s with
      | none => none
      | some s =>
        match ws1 s with
        | none => none
        | some s =>
          match lit ("address-group".toList) s with
          | none => none
          | some s =>
            match ws1 s with
            | none => none
            | some s =>
              match tok s with
              | none => none
              | some (name, s) =>
                match ws1 s with
                | none => none
                | some s =>
                  match lit ("static".toList) s with
                  | none => none
                  | some s => (staticTail s).map (fun d => (name, d))

/-- Pattern `set\s+device-group\s+(\S+)\s+address-group\s+(\S+)\s+static\s+(.+)`
at one position; captures (device group, group name, member-list text). -/
def mAGDeviceAt (s : Str) : Option (Str × Str × Str) :=
  match lit ("set".toList) s with
  | none => none
  | some s =>
    match ws1 s with
    | none => none
    | some s =>
      match lit ("device-group".toList) s with
      | none => none
      | some s =>
        match ws1 s with
        | none => none
        | some s =>
          match tok s with
          | none => none
          | some (dg, s) =>
            match ws1 s with
            | none => none
            | some s =>
              match lit ("address-group".toList) s with
              | none => none
              | some s =>
                match ws1 s with
                | none => none
                | some s =>
                  match tok s with
                  | none => none
                  | some (name, s) =>
                    match ws1 s with
                    | none => none
                    | some s =>
                      match lit ("static".toList) s with
                      | none => none
                      | some s => (staticTail s).map (fun d => (dg, name, d))

/-- Capture `([\d\.]+/\d+)`: a maximal nonempty digits-and-dots run, a slash,
and a maximal nonempty digit run. -/
def ipCap (s : Str) : Option Str :=
  let a := s.takeWhile (fun c => c.isDigit || c = '.')
  if a.isEmpty then none
  else
    match s.drop a.length with
    | '/' :: r2 =>
        let b := r2.takeWhile (fun c => c.isDigit)
        if b.isEmpty then none else some (a ++ '/' :: b)
    | _ => none

/-- Tail of the `ip_netmask` pattern: `address\s+(\S+)\s+ip-netmask\s+<cidr>`,
capturing (address name, cidr). -/
def mIpTailAt (s : Str) : Option (Str × Str) :=
  match lit ("address".toList) s with
  | none => none
  | some s =>
    match ws1 s with
    | none => none
    | some s =>
      match tok s with
      | none => none
      | some (name, s) =>
        match ws1 s with
        | none => none
        | some s =>
          match lit ("ip-netmask".toList) s with
          | none => none
          | some s =>
            match ws1 s with
            | none => none
            | some s => (ipCap s).map (fun ip => (name, ip))

/-- Pattern `set\s+(?:shared|device-group\s+\S+)\s+address\s+(\S+)\s+ip-netmask\s+([\d\.]+/\d+)`
at one position (the two alternation branches start with distinct literals, so
trying them in order is exact). -/
def mIpNetmaskAt (s : Str) : Option (Str × Str) :=
  match lit ("set".toList) s with
  | none => none
  | some s =>
    match ws1 s with
    | none => none
    | some s =>
      let branchShared :=
        match lit ("shared".toList) s with
        | none => none
        | some s =>
          match ws1 s with
          | none => none
          | some s => mIpTailAt s
      match branchShared with
      | some r => some r
      | none =>
        match lit ("device-group".toList) s with
        | none => none
        | some s =>
          match ws1 s with
          | none => none
          | some s =>
            match tok s with
            | none => none
            | some (_, s) =>
              match ws1 s with
              | none => none
              | some s => mIpTailAt s

/-- Inline pattern `set\s+device-group\s+(\S+)\s+address` used by the
redundancy detector to attribute a scope to a defining line. -/
def mRedundantDgAt (s : Str) : Option Str :=
  match lit ("set".toList) s with
  | none => none
  | some s =>
    match ws1 s with
    | none => none
    | some s =>
      match lit ("device-group".toList) s with
      | none => none
      | some s =>
        match ws1 s with
        | none => none
        | some s =>
          match tok s with
          | none => none
          | some (dg, s) =>
            match ws1 s with
            | none => none
            | some s =>
              match lit ("address".toList) s with
              | none => none
              | some _ => some dg

example : searchAll mIpNetmaskAt ("set shared address A1 ip-netmask 10.0.0.1/32".toList)
    = some (("A1".toList), ("10.0.0.1/32".toList)) := by decide

example : searchAll mAGSharedAt ("set shared address-group WEB static [ web1 web2 ]".toList)
    = some (("WEB".toList), ("[ web1 web2 ]".toList)) := by decide

example : searchAll mSecRuleQuotedAt
    ("set device-group DG1 security-rule \"R1\" destination address1".toList)
    = some ("R1".toList) := by decide

example : wsSplit ("[ web1 web2 ]".toList)
    = [("[".toList), ("web1".toList), ("web2".toList), ("]".toList)] := by decide

/-! ### Data model (§3): per-address result records -/

/-- Address-group descriptor as built at `parse.py:165-188` and
`parse.py:300-318` (the `device_group` key is present only for
device-group-scoped groups, modelled with `Option`). -/
structure AGInfo where
  name : Str
  context : Str
  device_group : Option Str
  definition : Str
deriving DecidableEq

/-- Redundant-address descriptor as built at `parse.py:207-211`. -/
structure RedundantEntry where
  name : Str
  ip_netmask : Str
  device_group : Str
deriving DecidableEq

/-- One per-address result record (the defaultdict value factory at
`parse.py:41-53`). -/
structure AddressResult where
  matching_lines : List Str
  device_groups : List Str
  direct_rules : List (Str × Str)
  direct_rule_contexts : List (Str × Str)
  indirect_rules : List (Str × Str)
  indirect_rule_contexts : List (Str × Str)
  address_groups : List AGInfo
  nat_rules : List Str
  service_groups : List Str
  ip_netmask : Option Str
  redundant_addresses : List RedundantEntry
deriving DecidableEq

/-- The empty record produced by the defaultdict factory. -/
def AddressResult.default : AddressResult :=
  ⟨[], [], [], [], [], [], [], [], [], none, []⟩

/-- The engine's result table: `self.results`, a defaultdict keyed by address
name.  A key is materialized on first access. -/
structure Results where
  entries : List (Str × AddressResult)
deriving DecidableEq

def Results.empty : Results := ⟨[]⟩

/-- Lookup without materializing (used to observe which keys exist). -/
def Results.find? (t : Results) (a : Str) : Option AddressResult :=
  alookup t.entries a

/-- The record an access would observe (absent keys read as the default). -/
def Results.get (t : Results) (a : Str) : AddressResult :=
  (t.find? a).getD AddressResult.default

/-- Python `self.results[a]` followed by a mutation of the record: the
defaultdict materializes the key with the factory default, then the record is
updated in place. -/
def Results.modify (t : Results) (a : Str) (f : AddressResult → AddressResult) : Results :=
  if (alookup t.entries a).isSome then ⟨updAll a f t.entries⟩
  else ⟨t.entries ++ [(a, f AddressResult.default)]⟩

/-- A bare defaultdict access (`self.results[a]` read): materializes the key. -/
def Results.touch (t : Results) (a : Str) : Results := t.modify a id

/-! ### Line classifier (`parse.py:107-188`) -/

def kwDest : Str := ("destination".toList)
def kwSource : Str := ("source".toList)
def kwService : Str := ("service".toList)
def ctxDirect : Str := ("references directly".toList)
def ctxDest : Str := ("contains address in destination".toList)
def ctxSrc : Str := ("contains address in source".toList)
def ctxSvc : Str := ("references address in service field".toList)
def ctxShared : Str := ("shared".toList)
def ctxDeviceGroup : Str := ("device-group".toList)
def dgUnknown : Str := ("Unknown".toList)

/-- Python `line.split("destination")[1].split("source")[0]`
(`parse.py:156`). -/
def destSeg (line : Str) : Str := beforeFirst kwSource (segAfter kwDest line)

/-- Python `line.split("source")[1].split("destination")[0]`
(`parse.py:158`). -/
def srcSeg (line : Str) : Str := beforeFirst kwDest (segAfter kwSource line)

/-- Context determination of `_extract_security_rule` (`parse.py:154-161`):
destination checked first, then source, then service; first match wins. -/
def ruleContext (line address : Str) : Str :=
  if containsSub kwDest line && containsSub address (destSeg line) then ctxDest
  else if containsSub kwSource line && containsSub address (srcSeg line) then ctxSrc
  else if containsSub kwService line && containsSub address (segAfter kwService line) then ctxSvc
  else ctxDirect

/-- `_extract_security_rule` (`parse.py:139-163`): try the four rule patterns
in order; on a hit return the rule name and the context classification. -/
def extract_security_rule (line address : Str) : Option (Str × Str) :=
  let rule? :=
    match searchAll mSecRuleQuotedAt line with
    | some r => some r
    | none =>
      match searchAll mSecRuleUnquotedAt line with
      | some r => some r
      | none =>
        match searchAll mSecRulesQuotedAt line with
        | some r => some r
        | none => searchAll mSecRulesUnquotedAt line
  match rule? with
  | none => none
  | some r => some (r, ruleContext line address)

/-- `_extract_address_group` (`parse.py:165-188`). -/
def extract_address_group (line : Str) : Option AGInfo :=
  match searchAll mAGSharedAt line with
  | some (group_name, d) => some ⟨group_name, ctxShared, none, d⟩
  | none =>
    match searchAll mAGDeviceAt line with
    | some (dg, group_name, d) => some ⟨group_name, ctxDeviceGroup, some dg, d⟩
    | none => none

/-- `_parse_group_members` (`parse.py:347-357`): strip, remove one layer of
brackets, split on whitespace. -/
def parse_group_members (definition : Str) : List Str :=
  let d := pstrip definition
  let d :=
    if d.head? = some '[' ∧ d.getLast? = some ']' then (d.drop 1).dropLast else d
  wsSplit d

/-- The record transformation of `_extract_items_from_line`
(`parse.py:107-137`), given the already-computed device-group match.  The five
sequential in-place updates of the Python function touch pairwise disjoint
fields and each reads only fields the earlier ones do not write, so they are
stated here as one simultaneous record update. -/
def extractItemsUpdate (line address : Str) (dg? : Option Str) (r0 : AddressResult) :
    AddressResult :=
  { r0 with
      device_groups :=
        match dg? with
        | some dg => sadd r0.device_groups dg
        | none => r0.device_groups,
      direct_rules :=
        match extract_security_rule line address with
        | some (rule_name, _) => dinsert r0.direct_rules rule_name (dg?.getD dgUnknown)
        | none => r0.direct_rules,
      direct_rule_contexts :=
        match extract_security_rule line address with
        | some (rule_name, context) => dinsert r0.direct_rule_contexts rule_name context
        | none => r0.direct_rule_contexts,
      address_groups :=
        match extract_address_group line with
        | some ag =>
            if ag ∈ r0.address_groups then r0.address_groups
            else r0.address_groups ++ [ag]
        | none => r0.address_groups,
      nat_rules :=
        match searchAll mNatRuleAt line with
        | some n => sadd r0.nat_rules n
        | none => r0.nat_rules,
      service_groups :=
        match searchAll mServiceGroupAt line with
        | some g => sadd r0.service_groups g
        | none => r0.service_groups }

/-- `_extract_items_from_line` (`parse.py:107-137`): merge all facts of one
admitted line into the record of `address`. -/
def extract_items_from_line (line address : Str) (res : Results) : Results :=
  res.modify address (extractItemsUpdate line address (searchAll mDeviceGroupAt line))

/-! ### Relationship engine, primary scan (`parse.py:55-105`) -/

/-- Scan-scoped state: the result table plus the IP/netmask index
(`ip_to_addresses`), an insertion-ordered map from CIDR to the (name,
defining line) pairs seen. -/
structure ScanState where
  results : Results
  ipMap : List (Str × List (Str × Str))
deriving DecidableEq

/-- Record one address definition into the IP index (`parse.py:74-76`). -/
def ipAppend (m : List (Str × List (Str × Str))) (ip : Str) (p : Str × Str) :
    List (Str × List (Str × Str)) :=
  if (alookup m ip).isSome then updAll ip (fun l => l ++ [p]) m
  else m ++ [(ip, [p])]

/-- Record update for `parse.py:72`: store the CIDR of a target definition. -/
def setIpUpdate (ip : Str) (r : AddressResult) : AddressResult :=
  { r with ip_netmask := some ip }

/-- Record update for `parse.py:86`: append an admitted line. -/
def appendMatchingLine (line : Str) (r : AddressResult) : AddressResult :=
  { r with matching_lines := r.matching_lines ++ [line] }

/-- One step of the per-line loop over matching addresses (`parse.py:85-87`). -/
def matchStep (line : Str) (st2 : ScanState) (address : Str) : ScanState :=
  ⟨extract_items_from_line line address
      (st2.results.modify address (appendMatchingLine line)),
    st2.ipMap⟩

/-- One iteration of the primary-scan loop (`parse.py:62-87`).  The set of
matching target addresses is processed in target order (each per-address
record is independent of the order, which in Python is hash order). -/
def scanLine (targetSet : List Str) (st : ScanState) (raw : Str) : ScanState :=
  let line := pstrip raw
  if line.isEmpty then st
  else
    let st1 :=
      match searchAll mIpNetmaskAt line with
      | some (addr_name, ip) =>
          let res :=
            if addr_name ∈ targetSet then st.results.modify addr_name (setIpUpdate ip)
            else st.results
          ⟨res, ipAppend st.ipMap ip (addr_name, line)⟩
      | none => st
    (targetSet.filter (fun a => containsSub a line)).foldl (matchStep line) st1

/-- The primary scan over all file lines (`parse.py:60-87`). -/
def primaryScan (fileLines : List Str) (targetSet : List Str) : ScanState :=
  fileLines.foldl (scanLine targetSet) ⟨Results.empty, []⟩

/-! ### Redundancy detector (`parse.py:190-212`) -/

/-- Scope attribution for a defining line (`parse.py:201-205`). -/
def dgOfDefLine (line : Str) : Str :=
  if ("set shared".toList).isPrefixOf line then ctxShared
  else
    match searchAll mRedundantDgAt line with
    | some dg => dg
    | none => dgUnknown

/-- The peer list built for one target under one IP value
(`parse.py:197-211`). -/
def redundantPeers (ip : Str) (addrList : List (Str × Str)) (t : Str) : List RedundantEntry :=
  addrList.filterMap (fun p =>
    if p.1 = t then none else some ⟨p.1, ip, dgOfDefLine p.2⟩)

/-- Record update for `parse.py:212`: overwrite the redundant-address list. -/
def setRedundantUpdate (peers : List RedundantEntry) (r : AddressResult) : AddressResult :=
  { r with redundant_addresses := peers }

/-- Inner loop of the redundancy detector over targets (`parse.py:194-212`). -/
def redundantTargetStep (entry : Str × List (Str × Str)) (res2 : Results) (t : Str) :
    Results :=
  if entry.2.any (fun p => decide (p.1 = t)) then
    res2.modify t (setRedundantUpdate (redundantPeers entry.1 entry.2 t))
  else res2

/-- Outer loop of the redundancy detector over IP values (`parse.py:192-212`). -/
def redundantIpStep (targetSet : List Str) (res1 : Results) (entry : Str × List (Str × Str)) :
    Results :=
  if entry.2.length > 1 then targetSet.foldl (redundantTargetStep entry) res1
  else res1

/-- `_find_redundant_addresses` (`parse.py:190-212`).  Note the assignment at
`parse.py:212`: for each qualifying IP value the target's list is overwritten,
so the last qualifying IP value (in first-seen order) wins. -/
def find_redundant_addresses (ipMap : List (Str × List (Str × Str)))
    (targetSet : List Str) (res : Results) : Results :=
  ipMap.foldl (redundantIpStep targetSet) res

/-! ### Indirect reference resolver (`parse.py:214-280`) -/

/-- Materialize the record of every requested address: the accesses
`self.results[addr]` at `parse.py:218-219` create defaultdict entries for all
targets, before the guarded re-scan begins. -/
def touchAll (targets : List Str) (res : Results) : Results :=
  targets.foldl (fun r a => r.touch a) res

/-- The reverse index `all_groups` from group name to (descriptor, owning
target), dict-assigned so the last owner wins (`parse.py:217-220`). -/
def buildAllGroups (targets : List Str) (res : Results) : List (Str × AGInfo × Str) :=
  targets.foldl
    (fun m a => (res.get a).address_groups.foldl (fun m2 g => dinsert m2 g.name (g, a)) m)
    []

/-- The explanation string for one indirect hit (`parse.py:258-275`); note the
`elif`, so at most one usage annotation is appended. -/
def mkIndirectContext (group_name : Str) (group_info : AGInfo) (target_addr line : Str) : Str :=
  let context :=
    if group_info.context = ctxShared then
      ("references shared address-group \x27".toList) ++ group_name ++
        ("\x27 that contains ".toList) ++ target_addr
    else if group_info.context = ctxDeviceGroup then
      ("references address-group \x27".toList) ++ group_name ++
        ("\x27 from device-group \x27".toList) ++ (group_info.device_group.getD dgUnknown) ++
        ("\x27 that contains ".toList) ++ target_addr
    else
      ("references address-group \x27".toList) ++ group_name ++
        ("\x27 that contains ".toList) ++ target_addr
  if containsSub kwDest line && containsSub group_name line then
    (if containsSub group_name (segAfter kwDest line) then
        context ++ (" (in destination)".toList)
      else context)
  else if containsSub kwSource line && containsSub group_name line then
    (if containsSub group_name (segAfter kwSource line) then
        context ++ (" (in source)".toList)
      else context)
  else context

/-- Record update for `parse.py:256` and `parse.py:277`: record one indirect
rule together with its explanation string. -/
def addIndirectUpdate (rule_name device_group context : Str) (r : AddressResult) :
    AddressResult :=
  { r with
      indirect_rules := dinsert r.indirect_rules rule_name device_group,
      indirect_rule_contexts := dinsert r.indirect_rule_contexts rule_name context }

/-- One step over the referenced groups of one rule line (`parse.py:247-277`):
skipped when the rule is already a direct rule of the owning target. -/
def indirectGroupStep (line rule_name device_group : Str) (res2 : Results)
    (p : Str × AGInfo × Str) : Results :=
  if (alookup (res2.get p.2.2).direct_rules rule_name).isSome then res2
  else
    res2.modify p.2.2
      (addIndirectUpdate rule_name device_group (mkIndirectContext p.1 p.2.1 p.2.2 line))

/-- One iteration of the indirect re-scan loop (`parse.py:228-277`). -/
def indirectLine (all_groups : List (Str × AGInfo × Str)) (res : Results) (raw : Str) : Results :=
  let line := pstrip raw
  if !(containsSub ("security rules".toList) line || containsSub ("security-rule".toList) line)
  then res
  else
    let referenced := all_groups.filter (fun p => containsSub p.1 line)
    if referenced.isEmpty then res
    else
      match extract_security_rule line [] with
      | none => res
      | some (rule_name, _) =>
        let device_group := (searchAll mDeviceGroupAt line).getD dgUnknown
        referenced.foldl (indirectGroupStep line rule_name device_group) res

/-- `_find_indirect_rules` (`parse.py:214-280`). -/
def find_indirect_rules (fileLines : List Str) (targets : List Str) (res : Results) : Results :=
  let res := touchAll targets res
  let all_groups := buildAllGroups targets res
  if all_groups.isEmpty then res
  else fileLines.foldl (indirectLine all_groups) res

/-! ### Nested group resolver (`parse.py:282-345`) -/

/-- First pass of `_find_nested_address_groups` (`parse.py:288-319`): the
catalogue of every address-group definition with its parsed member list, a
dict keyed by group name (later definitions overwrite earlier ones). -/
def buildGroupCatalogue (fileLines : List Str) : List (Str × AGInfo × List Str) :=
  fileLines.foldl
    (fun cat raw =>
      let line := pstrip raw
      if line.isEmpty then cat
      else
        match searchAll mAGSharedAt line with
        | some (group_name, d) =>
            dinsert cat group_name (⟨group_name, ctxShared, none, d⟩, parse_group_members d)
        | none =>
          match searchAll mAGDeviceAt line with
          | some (dg, group_name, d) =>
              dinsert cat group_name
                (⟨group_name, ctxDeviceGroup, some dg, d⟩, parse_group_members d)
          | none => cat)
    []

/-- The `relevant_for_addresses` set of one catalogue entry
(`parse.py:322-336`): targets contained in a member group one level down, or
appearing directly among the members. -/
def nestedRelevant (cat : List (Str × AGInfo × List Str)) (members : List Str)
    (targetSet : List Str) : List Str :=
  targetSet.filter (fun t =>
    members.any (fun m =>
      (match alookup cat m with
        | some q => decide (t ∈ q.2)
        | none => false)
      || decide (m = t)))

/-- Record update for `parse.py:342`: attach a group descriptor. -/
def appendGroupUpdate (group_info : AGInfo) (r : AddressResult) : AddressResult :=
  { r with address_groups := r.address_groups ++ [group_info] }

/-- One step over the relevant targets of one catalogue entry
(`parse.py:339-342`): attach the group unless one of that name is present. -/
def nestedTargetStep (group_info : AGInfo) (res2 : Results) (t : Str) : Results :=
  if group_info.name ∈ (res2.get t).address_groups.map (fun g => g.name) then res2
  else res2.modify t (appendGroupUpdate group_info)

/-- One step over the catalogue (`parse.py:322-342`). -/
def nestedGroupStep (cat : List (Str × AGInfo × List Str)) (targetSet : List Str)
    (res1 : Results) (entry : Str × AGInfo × List Str) : Results :=
  (nestedRelevant cat entry.2.2 targetSet).foldl (nestedTargetStep entry.2.1) res1

/-- `_find_nested_address_groups` (`parse.py:282-345`), second pass: attach
each catalogued group to the relevant targets unless a group of that name is
already present. -/
def find_nested_address_groups (fileLines : List Str) (targets : List Str) (res : Results) :
    Results :=
  let targetSet := targets.dedup
  let cat := buildGroupCatalogue fileLines
  cat.foldl (nestedGroupStep cat targetSet) res

/-! ### Orchestration (`parse.py:55-105`) -/

/-- Fault profile for the three secondary resolver stages, to model an
unexpected exception raised inside each stage.  `redundancy` models a failure
inside `_find_redundant_addresses`, which `parse.py` calls outside any
try/except (`parse.py:96-105`); `indirectScan` a failure inside the guarded
re-scan of `_find_indirect_rules` (`parse.py:226-280`); `nested` a failure
inside the guarded body of `_find_nested_address_groups` (`parse.py:287-345`). -/
structure Faults where
  redundancy : Bool
  indirectScan : Bool
  nested : Bool
deriving DecidableEq

def noFaults : Faults := ⟨false, false, false⟩

/-- `process_file_single_pass` (`parse.py:55-105`) under a fault profile.
`none` models the run not completing successfully (an uncaught exception
escaping, so no `True` is returned); a caught stage failure leaves the table
as it stood when the stage aborted (modelled at stage entry, after the
unguarded prelude of `_find_indirect_rules`). -/
def process_file_single_pass (fileLines : List Str) (targets : List Str) (f : Faults) :
    Option Results :=
  let targetSet := targets.dedup
  let st := primaryScan fileLines targetSet
  if f.redundancy then none
  else
    let res := find_redundant_addresses st.ipMap targetSet st.results
    let res :=
      if f.indirectScan then
        let res := touchAll targets res
        let all_groups := buildAllGroups targets res
        if all_groups.isEmpty then res else res
      else find_indirect_rules fileLines targets res
    let res := if f.nested then res else find_nested_address_groups fileLines targets res
    some res

/-- The fault-free run: primary scan, then redundancy, indirect and nested
resolution in the fixed order of `parse.py:96-103`. -/
def runStages (fileLines : List Str) (targets : List Str) : Results :=
  let targetSet := targets.dedup
  let st := primaryScan fileLines targetSet
  let res := find_redundant_addresses st.ipMap targetSet st.results
  let res := find_indirect_rules fileLines targets res
  find_nested_address_groups fileLines targets res

/-! ### Report assembly (`parse.py:359-384`) -/

/-- The category mapping returned by `format_results`. -/
structure FormattedResults where
  deviceGroups : List Str
  directRules : List Str
  indirectRules : List Str
  addressGroups : List AGInfo
  natRules : List Str
  serviceGroups : List Str
  redundantAddresses : List RedundantEntry
deriving DecidableEq

/-- Rendering of one rule entry (`parse.py:365-367` and `372-374`). -/
def formatRule (contexts : List (Str × Str)) (dflt : Str) (p : Str × Str) : Str :=
  p.1 ++ (" (Device Group: ".toList) ++ p.2 ++ (", ".toList) ++
    ((alookup contexts p.1).getD dflt) ++ (")".toList)

/-- `format_results` (`parse.py:359-384`).  The access `self.results[address]`
at `parse.py:361` is a defaultdict read, so it materializes the key: the
function returns the derived view together with the table as it stands after
that access. -/
def format_results (res : Results) (address : Str) : FormattedResults × Results :=
  let res1 := res.touch address
  let r := res1.get address
  (⟨r.device_groups,
    r.direct_rules.map (formatRule r.direct_rule_contexts ("direct reference".toList)),
    r.indirect_rules.map (formatRule r.indirect_rule_contexts ("indirect reference".toList)),
    r.address_groups, r.nat_rules, r.service_groups, r.redundant_addresses⟩, res1)

/-! ### Basic lemmas: association lists and the result table -/

theorem alookup_append {α : Type} (l1 l2 : List (Str × α)) (a : Str) :
    alookup (l1 ++ l2) a =
      match alookup l1 a with
      | some v => some v
      | none => alookup l2 a := by
  induction l1 with
  | nil => rfl
  | cons p rest ih =>
      by_cases h : p.1 = a
      · simp [alookup, h]
      · simp [alookup, h, ih]

theorem alookup_updAll_self {α : Type} (l : List (Str × α)) (k : Str) (g : α → α) :
    alookup (updAll k g l) k = (alookup l k).map g := by
  induction l with
  | nil => rfl
  | cons p rest ih =>
      obtain ⟨k1, v1⟩ := p
      by_cases h : k1 = k
      · subst h
        simp [updAll, alookup, ih]
      · simp [updAll, alookup, h, ih]

theorem alookup_updAll_ne {α : Type} (l : List (Str × α)) (k a : Str) (g : α → α)
    (h : a ≠ k) :
    alookup (updAll k g l) a = alookup l a := by
  induction l with
  | nil => rfl
  | cons p rest ih =>
      obtain ⟨k1, v1⟩ := p
      by_cases hp : k1 = k
      · subst hp
        simp [updAll, alookup, Ne.symm h, ih]
      · simp [updAll, alookup, hp, ih]

theorem alookup_dinsert_self {α : Type} (d : List (Str × α)) (k : Str) (v : α) :
    alookup (dinsert d k v) k = some v := by
  unfold dinsert
  by_cases h : (alookup d k).isSome
  · rw [if_pos h]
    have hu := alookup_updAll_self d k (fun _ => v)
    rcases ho : alookup d k with _ | w
    · rw [ho] at h; simp at h
    · rw [ho] at hu; simpa using hu
  · rw [if_neg h]
    rw [alookup_append]
    rcases ho : alookup d k with _ | w
    · simp [alookup]
    · rw [ho] at h; simp at h

theorem alookup_dinsert_ne {α : Type} (d : List (Str × α)) (k v : _) (a : Str) (h : a ≠ k) :
    alookup (dinsert d k (v : α)) a = alookup d a := by
  unfold dinsert
  by_cases hs : (alookup d k).isSome
  · rw [if_pos hs]
    exact alookup_updAll_ne d k a (fun _ => v) h
  · rw [if_neg hs, alookup_append]
    rcases ho : alookup d a with _ | w
    · simp [alookup, Ne.symm h]
    · simp

theorem alookup_dinsert_isSome {α : Type} (d : List (Str × α)) (k : Str) (v : α) (a : Str)
    (h : (alookup (dinsert d k v) a).isSome) : a = k ∨ (alookup d a).isSome := by
  by_cases ha : a = k
  · exact Or.inl ha
  · right; rwa [alookup_dinsert_ne d k v a ha] at h

theorem alookup_mem {α : Type} (l : List (Str × α)) (a : Str) (v : α)
    (h : alookup l a = some v) : (a, v) ∈ l := by
  induction l with
  | nil => simp [alookup] at h
  | cons p rest ih =>
      obtain ⟨k1, v1⟩ := p
      by_cases hp : k1 = a
      · subst hp
        simp only [alookup, eq_self_iff_true, if_true, Option.some.injEq] at h
        subst h
        exact List.mem_cons_self _ _
      · simp only [alookup, if_neg hp] at h
        exact List.mem_cons_of_mem _ (ih h)

namespace Results

theorem find?_modify_self (t : Results) (a : Str) (f : AddressResult → AddressResult) :
    (t.modify a f).find? a = some (f (t.get a)) := by
  unfold modify find? get
  by_cases hs : (alookup t.entries a).isSome
  · rw [if_pos hs]
    show alookup _ a = _
    rw [alookup_updAll_self]
    rcases ho : alookup t.entries a with _ | w
    · rw [ho] at hs; simp at hs
    · simp [Results.find?, ho]
  · rw [if_neg hs]
    show alookup _ a = _
    rw [alookup_append]
    rcases ho : alookup t.entries a with _ | w
    · simp [alookup, Results.find?, ho]
    · rw [ho] at hs; simp at hs

theorem find?_modify_ne (t : Results) (a b : Str) (f : AddressResult → AddressResult)
    (h : b ≠ a) : (t.modify a f).find? b = t.find? b := by
  unfold modify find?
  by_cases hs : (alookup t.entries a).isSome
  · rw [if_pos hs]
    exact alookup_updAll_ne t.entries a b f h
  · rw [if_neg hs]
    show alookup _ b = _
    rw [alookup_append]
    rcases ho : alookup t.entries b with _ | w
    · simp [Results.find?, ho, alookup, Ne.symm h]
    · simp [Results.find?, ho]

theorem get_modify_self (t : Results) (a : Str) (f : AddressResult → AddressResult) :
    (t.modify a f).get a = f (t.get a) := by
  show ((t.modify a f).find? a).getD _ = _
  rw [find?_modify_self]
  rfl

theorem get_modify_ne (t : Results) (a b : Str) (f : AddressResult → AddressResult)
    (h : b ≠ a) : (t.modify a f).get b = t.get b := by
  show ((t.modify a f).find? b).getD _ = _
  rw [find?_modify_ne t a b f h]
  rfl

theorem get_empty (a : Str) : Results.empty.get a = AddressResult.default := rfl

theorem get_touch (t : Results) (a b : Str) : (t.touch a).get b = t.get b := by
  unfold touch
  by_cases h : b = a
  · subst h; rw [get_modify_self]; rfl
  · exact get_modify_ne t a b id h

theorem find?_modify_isSome (t : Results) (a b : Str) (f : AddressResult → AddressResult)
    (h : (t.find? b).isSome) : ((t.modify a f).find? b).isSome := by
  by_cases hb : b = a
  · subst hb; rw [find?_modify_self]; rfl
  · rwa [find?_modify_ne t a b f hb]

theorem find?_touch_self (t : Results) (a : Str) : ((t.touch a).find? a).isSome := by
  unfold touch; rw [find?_modify_self]; rfl

/-- Field-preservation through `modify`: if the update function does not
change the observation `φ`, no record's `φ` changes. -/
theorem get_modify_phi {γ : Type} (φ : AddressResult → γ) (t : Results) (a b : Str)
    (f : AddressResult → AddressResult) (hf : ∀ r, φ (f r) = φ r) :
    φ ((t.modify a f).get b) = φ (t.get b) := by
  by_cases h : b = a
  · subst h; rw [get_modify_self, hf]
  · rw [get_modify_ne t a b f h]

end Results

/-- A state predicate preserved by every step of a fold is preserved by the
whole fold. -/
theorem foldl_pred {σ β : Type} (P : σ → Prop) (step : σ → β → σ) (l : List β) (s : σ)
    (h : ∀ s2 x, x ∈ l → P s2 → P (step s2 x)) (hs : P s) : P (l.foldl step s) := by
  induction l generalizing s with
  | nil => exact hs
  | cons x rest ih =>
      exact ih (step s x) (fun s2 y hy => h s2 y (List.mem_cons_of_mem _ hy))
        (h s x (List.mem_cons_self _ _) hs)

/-- Observation-preservation through a fold: if no step changes `φ`, the fold
does not change `φ`. -/
theorem foldl_phi {σ β γ : Type} (φ : σ → γ) (step : σ → β → σ) (l : List β) (s : σ)
    (h : ∀ s2 b, b ∈ l → φ (step s2 b) = φ s2) : φ (l.foldl step s) = φ s := by
  induction l generalizing s with
  | nil => rfl
  | cons x rest ih =>
      rw [List.foldl_cons, ih (step s x) (fun s2 y hy => h s2 y (List.mem_cons_of_mem _ hy)),
        h s x (List.mem_cons_self _ _)]

/-! ### Which fields each stage can touch -/

theorem touchAll_get (targets : List Str) (res : Results) (a : Str) :
    (touchAll targets res).get a = res.get a := by
  unfold touchAll
  exact foldl_phi (fun r : Results => r.get a) (fun r b => r.touch b) targets res
    (fun s2 b _ => Results.get_touch s2 b a)

/-- The primary scan never writes the indirect-rule maps nor the
redundant-address list: those fields keep their defaults. -/
theorem primaryScan_get_phi {γ : Type} (φ : AddressResult → γ)
    (hip : ∀ ip r, φ (setIpUpdate ip r) = φ r)
    (hml : ∀ line r, φ (appendMatchingLine line r) = φ r)
    (hex : ∀ line address dg? r, φ (extractItemsUpdate line address dg? r) = φ r)
    (fileLines targetSet : List Str) (a : Str) :
    φ ((primaryScan fileLines targetSet).results.get a) = φ AddressResult.default := by
  unfold primaryScan
  have hstep : ∀ st raw, raw ∈ fileLines →
      φ ((scanLine targetSet st raw).results.get a) = φ (st.results.get a) := by
    intro st raw _
    unfold scanLine
    dsimp only
    split
    · rfl
    · have h1 : ∀ st1 : ScanState, φ (((targetSet.filter
          (fun x => containsSub x (pstrip raw))).foldl (matchStep (pstrip raw)) st1).results.get a)
          = φ (st1.results.get a) := by
        intro st1
        refine foldl_phi (fun st2 : ScanState => φ (st2.results.get a))
          (matchStep (pstrip raw)) _ st1 ?_
        intro s2 address _
        show φ ((matchStep (pstrip raw) s2 address).results.get a) = _
        unfold matchStep extract_items_from_line
        dsimp only
        rw [Results.get_modify_phi φ _ _ _ _ (hex _ _ _),
          Results.get_modify_phi φ _ _ _ _ (hml _)]
      rw [h1]
      split
      · rename_i addr_name ip heq
        dsimp only
        split
        · exact Results.get_modify_phi φ _ _ _ _ (hip _)
        · rfl
      · rfl
  exact foldl_phi (fun st : ScanState => φ (st.results.get a)) (scanLine targetSet) fileLines
    ⟨Results.empty, []⟩ hstep

theorem find_redundant_get_phi {γ : Type} (φ : AddressResult → γ)
    (hφ : ∀ peers r, φ (setRedundantUpdate peers r) = φ r)
    (ipMap : List (Str × List (Str × Str))) (targetSet : List Str) (res : Results) (a : Str) :
    φ ((find_redundant_addresses ipMap targetSet res).get a) = φ (res.get a) := by
  unfold find_redundant_addresses
  refine foldl_phi (fun r : Results => φ (r.get a)) (redundantIpStep targetSet) ipMap res ?_
  intro s2 entry _
  show φ ((redundantIpStep targetSet s2 entry).get a) = _
  unfold redundantIpStep
  split
  · refine foldl_phi (fun r : Results => φ (r.get a)) (redundantTargetStep entry) targetSet s2 ?_
    intro s3 t _
    show φ ((redundantTargetStep entry s3 t).get a) = _
    unfold redundantTargetStep
    split
    · exact Results.get_modify_phi φ _ _ _ _ (hφ _)
    · rfl
  · rfl

theorem find_indirect_get_phi {γ : Type} (φ : AddressResult → γ)
    (hφ : ∀ rule dg c r, φ (addIndirectUpdate rule dg c r) = φ r)
    (fileLines targets : List Str) (res : Results) (a : Str) :
    φ ((find_indirect_rules fileLines targets res).get a) = φ (res.get a) := by
  unfold find_indirect_rules
  dsimp only
  have htouch : (touchAll targets res).get a = res.get a := touchAll_get targets res a
  split
  · rw [htouch]
  · rw [← htouch]
    refine foldl_phi (fun r : Results => φ (r.get a))
      (indirectLine (buildAllGroups targets (touchAll targets res))) fileLines
      (touchAll targets res) ?_
    intro s2 raw _
    show φ ((indirectLine _ s2 raw).get a) = _
    unfold indirectLine
    dsimp only
    split
    · rfl
    · split
      · rfl
      · split
        · rfl
        · rename_i rule_name ctx heq
          refine foldl_phi (fun r : Results => φ (r.get a))
            (indirectGroupStep (pstrip raw) rule_name
              ((searchAll mDeviceGroupAt (pstrip raw)).getD dgUnknown)) _ s2 ?_
          intro s3 p _
          show φ ((indirectGroupStep _ _ _ s3 p).get a) = _
          unfold indirectGroupStep
          split
          · rfl
          · exact Results.get_modify_phi φ _ _ _ _ (hφ _ _ _)

theorem find_nested_get_phi {γ : Type} (φ : AddressResult → γ)
    (hφ : ∀ info r, φ (appendGroupUpdate info r) = φ r)
    (fileLines targets : List Str) (res : Results) (a : Str) :
    φ ((find_nested_address_groups fileLines targets res).get a) = φ (res.get a) := by
  unfold find_nested_address_groups
  refine foldl_phi (fun r : Results => φ (r.get a))
    (nestedGroupStep (buildGroupCatalogue fileLines) targets.dedup)
    (buildGroupCatalogue fileLines) res ?_
  intro s2 entry _
  show φ ((nestedGroupStep _ _ s2 entry).get a) = _
  unfold nestedGroupStep
  refine foldl_phi (fun r : Results => φ (r.get a)) (nestedTargetStep entry.2.1) _ s2 ?_
  intro s3 t _
  show φ ((nestedTargetStep _ s3 t).get a) = _
  unfold nestedTargetStep
  split
  · rfl
  · exact Results.get_modify_phi φ _ _ _ _ (hφ _)

/-- Fields of the record an `extractItemsUpdate` never touches. -/
theorem extractItemsUpdate_untouched (line address : Str) (dg? : Option Str)
    (r : AddressResult) :
    (extractItemsUpdate line address dg? r).matching_lines = r.matching_lines ∧
    (extractItemsUpdate line address dg? r).ip_netmask = r.ip_netmask ∧
    (extractItemsUpdate line address dg? r).indirect_rules = r.indirect_rules ∧
    (extractItemsUpdate line address dg? r).indirect_rule_contexts = r.indirect_rule_contexts ∧
    (extractItemsUpdate line address dg? r).redundant_addresses = r.redundant_addresses :=
  ⟨rfl, rfl, rfl, rfl, rfl⟩

/-! ### Claim C9: determinism -/

/-- C9: the engine is deterministic.  The embedding is a pure function of the
input line list and the ordered target list; every ordered sequence of the
contract (matching lines, address groups, redundant addresses, rule-map key
order) is produced by list appends in file order, never read back from a
hash-ordered iteration, so two runs over the same input and targets yield
identical result tables. -/
theorem run_deterministic (fileLines1 fileLines2 targets1 targets2 : List Str)
    (hl : fileLines1 = fileLines2) (ht : targets1 = targets2) :
    runStages fileLines1 targets1 = runStages fileLines2 targets2 := by
  subst hl
  subst ht
  rfl

theorem run_deterministic_witness :
    runStages [("set shared address A1 ip-netmask 10.0.0.1/32".toList)] [("A1".toList)]
      = runStages [("set shared address A1 ip-netmask 10.0.0.1/32".toList)] [("A1".toList)] :=
  run_deterministic _ _ _ _ rfl rfl

/-! ### Claim C4: destination-before-source context priority -/

/-- C4: context classification is deterministic with fixed priority
destination, then source, then service (`parse.py:154-161`): whenever a line
contains both keywords and the address occurs in the destination-delimited
segment (and not in the source-delimited one), the assigned context is the
destination classification, never the source one. -/
theorem context_destination_priority (line address rule ctx : Str)
    (hd : containsSub kwDest line = true)
    (hs : containsSub kwSource line = true)
    (hseg : containsSub address (destSeg line) = true)
    (hnsrc : containsSub address (srcSeg line) = false)
    (hr : extract_security_rule line address = some (rule, ctx)) :
    ctx = ctxDest ∧ ctx ≠ ctxSrc := by
  have hctx : ctx = ruleContext line address := by
    unfold extract_security_rule at hr
    dsimp only at hr
    split at hr
    · exact absurd hr (by simp)
    · rw [Option.some.injEq, Prod.mk.injEq] at hr
      exact hr.2.symm
  have hrc : ruleContext line address = ctxDest := by
    unfold ruleContext
    rw [hd, hseg]
    rfl
  rw [hctx, hrc]
  exact ⟨rfl, by decide⟩

theorem context_destination_priority_witness :
    ctxDest = ctxDest ∧ ctxDest ≠ ctxSrc :=
  context_destination_priority
    ("set device-group DG1 security-rule \"R1\" destination address1 source address2".toList)
    ("address1".toList) ("R1".toList) ctxDest
    (by decide) (by decide) (by decide) (by decide) (by decide)

/-! ### Claim C3: nested group resolution resolves exactly one level -/

/-- The group names attached to one address after a full run. -/
def agNames (fileLines targets : List Str) (a : Str) : List Str :=
  ((runStages fileLines targets).get a).address_groups.map (fun g => g.name)

/-- The two-level nesting input: G1 contains G2, G2 contains addrX. -/
def twoLevelInput : List Str :=
  [("set shared address-group G2 static [ addrX ]".toList),
    ("set shared address-group G1 static [ G2 ]".toList)]

/-- The three-level chain input: G1 ⊃ G2 ⊃ G3 ⊃ addrX. -/
def threeLevelInput : List Str :=
  [("set shared address-group G3 static [ addrX ]".toList),
    ("set shared address-group G2 static [ G3 ]".toList),
    ("set shared address-group G1 static [ G2 ]".toList)]

/-- C3: on the two-level input G1 ⊃ \x7bG2\x7d, G2 ⊃ \x7baddrX\x7d the target's
`address_groups` surfaces both G2 (primary scan) and G1 (nested resolver);
on the three-level chain G1 ⊃ \x7bG2\x7d, G2 ⊃ \x7bG3\x7d, G3 ⊃ \x7baddrX\x7d
the outermost group G1 is not surfaced — only G3 and G2 are: resolution goes
exactly one level deep. -/
theorem nested_resolution_one_level :
    (("G1".toList) ∈ agNames twoLevelInput [("addrX".toList)] ("addrX".toList)
      ∧ ("G2".toList) ∈ agNames twoLevelInput [("addrX".toList)] ("addrX".toList))
    ∧ (("G1".toList) ∉ agNames threeLevelInput [("addrX".toList)] ("addrX".toList)
      ∧ ("G2".toList) ∈ agNames threeLevelInput [("addrX".toList)] ("addrX".toList)
      ∧ ("G3".toList) ∈ agNames threeLevelInput [("addrX".toList)] ("addrX".toList)) := by
  exact ⟨⟨by decide, by decide⟩, by decide, by decide, by decide⟩

/-! ### Claim C7: formatting as a frame operation -/

theorem updAll_id {α : Type} (k : Str) (l : List (Str × α)) : updAll k id l = l := by
  induction l with
  | nil => rfl
  | cons p rest ih =>
      obtain ⟨k1, v1⟩ := p
      by_cases h : k1 = k
      · subst h
        simp [updAll, ih]
      · simp [updAll, h, ih]

/-- C7 counterexample: formatting is not read-only on the result table.  On
the table of an empty run, formatting a name that was never a target and never
touched materializes a fresh defaultdict entry (`parse.py:361`), so the table
changes. -/
theorem format_results_not_readonly :
    (format_results (runStages [] []) ("foo".toList)).2 ≠ runStages [] [] := by
  decide

/-- C7 (amended): formatting never changes any existing per-address record;
it leaves the table unchanged whenever the queried name already has a record
(in particular for every target of a completed run), and for an absent name
its only effect is to append that name with a fresh default record. -/
theorem format_results_frame (t : Results) (a : Str) :
    ((t.find? a).isSome → (format_results t a).2 = t)
    ∧ (∀ b, (t.find? b).isSome → (format_results t a).2.find? b = t.find? b)
    ∧ (t.find? a = none →
        (format_results t a).2.entries = t.entries ++ [(a, AddressResult.default)]) := by
  have htouch : (format_results t a).2 = t.touch a := rfl
  have hpres : (t.find? a).isSome → t.touch a = t := by
    intro hs
    have hs2 : (alookup t.entries a).isSome = true := hs
    unfold Results.touch Results.modify
    rw [if_pos hs2, updAll_id]
  refine ⟨fun hs => htouch.trans (hpres hs), fun b hb => ?_, fun hn => ?_⟩
  · rw [htouch]
    by_cases hs : (t.find? a).isSome
    · rw [hpres hs]
    · have hs2 : ¬ (alookup t.entries a).isSome = true := hs
      unfold Results.touch Results.modify
      rw [if_neg hs2]
      show alookup _ b = _
      rw [alookup_append]
      rcases ho : alookup t.entries b with _ | w
      · rw [show t.find? b = alookup t.entries b from rfl, ho] at hb
        simp at hb
      · simp [Results.find?, ho]
  · rw [htouch]
    have hn2 : ¬ (alookup t.entries a).isSome = true := by
      rw [show alookup t.entries a = t.find? a from rfl, hn]
      simp
    unfold Results.touch Results.modify
    rw [if_neg hn2]
    rfl

theorem format_results_frame_witness :
    (format_results (runStages [] [("A1".toList)]) ("A1".toList)).2
      = runStages [] [("A1".toList)] :=
  (format_results_frame (runStages [] [("A1".toList)]) ("A1".toList)).1 (by decide)

/-! ### Claim C2: fault handling of the secondary resolver stages -/

/-- The engine state after the primary scan and the redundancy detector. -/
def runThroughRedundancy (fileLines targets : List Str) : Results :=
  let targetSet := targets.dedup
  let st := primaryScan fileLines targetSet
  find_redundant_addresses st.ipMap targetSet st.results

/-- The table a faulty run ends with when the redundancy stage succeeded:
an indirect-scan fault leaves only the unguarded defaultdict touches of
`parse.py:218-219`; a nested fault leaves the table as the stage found it. -/
def processTail (fileLines targets : List Str) (f : Faults) : Results :=
  let res := runThroughRedundancy fileLines targets
  let res :=
    if f.indirectScan then touchAll targets res
    else find_indirect_rules fileLines targets res
  if f.nested then res else find_nested_address_groups fileLines targets res

/-- The eight record components gathered by the primary scan and the
redundancy detector (everything except the indirect-rule maps, which the
indirect resolver owns, and `address_groups`, which the nested resolver
appends to). -/
def coreView (r : AddressResult) :
    List Str × List Str × List (Str × Str) × List (Str × Str) × List Str × List Str ×
      Option Str × List RedundantEntry :=
  (r.matching_lines, r.device_groups, r.direct_rules, r.direct_rule_contexts,
    r.nat_rules, r.service_groups, r.ip_netmask, r.redundant_addresses)

/-- C2 counterexample: an unexpected failure inside the redundancy detector is
NOT caught — `parse.py:97` calls `_find_redundant_addresses` outside any
try/except, so the exception escapes `process_file_single_pass` and the run
does not complete successfully, contradicting the claim that failures in any
of the three secondary stages are caught and the run still returns success. -/
theorem redundancy_fault_uncaught :
    process_file_single_pass
      [("set shared address address1 ip-netmask 10.0.0.1/32".toList),
        ("set shared address address2 ip-netmask 10.0.0.1/32".toList)]
      [("address1".toList)] ⟨true, false, false⟩ = none := rfl

/-- C2 (amended): failures inside the guarded re-scan of the indirect-rule
resolver and inside the nested-group resolver are caught: the run still
completes successfully and every fact gathered by the primary scan and the
redundancy detector is preserved unchanged; but a failure inside the
redundancy detector is not caught and aborts the whole run. -/
theorem resolver_fault_handling (fileLines targets : List Str) (f : Faults) :
    (f.redundancy = true → process_file_single_pass fileLines targets f = none)
    ∧ (f.redundancy = false →
        process_file_single_pass fileLines targets f
            = some (processTail fileLines targets f)
          ∧ ∀ a, coreView ((processTail fileLines targets f).get a)
              = coreView ((runThroughRedundancy fileLines targets).get a)) := by
  obtain ⟨fr, fi, fn⟩ := f
  constructor
  · intro hr
    simp only at hr
    subst hr
    rfl
  · intro hr
    simp only at hr
    subst hr
    constructor
    · cases fi <;> cases fn <;>
        simp only [process_file_single_pass, processTail, runThroughRedundancy, ite_self] <;>
        rfl
    · intro a
      have hcore_ind : ∀ res2 : Results,
          coreView ((find_indirect_rules fileLines targets res2).get a)
            = coreView (res2.get a) :=
        fun res2 => find_indirect_get_phi coreView (fun _ _ _ _ => rfl) fileLines targets res2 a
      have hcore_nested : ∀ res2 : Results,
          coreView ((find_nested_address_groups fileLines targets res2).get a)
            = coreView (res2.get a) :=
        fun res2 => find_nested_get_phi coreView (fun _ _ => rfl) fileLines targets res2 a
      have hcore_touch : ∀ res2 : Results,
          coreView ((touchAll targets res2).get a) = coreView (res2.get a) :=
        fun res2 => by rw [touchAll_get]
      cases fi <;> cases fn
      · show coreView ((find_nested_address_groups fileLines targets
            (find_indirect_rules fileLines targets
              (runThroughRedundancy fileLines targets))).get a) = _
        rw [hcore_nested, hcore_ind]
      · show coreView ((find_indirect_rules fileLines targets
            (runThroughRedundancy fileLines targets)).get a) = _
        rw [hcore_ind]
      · show coreView ((find_nested_address_groups fileLines targets
            (touchAll targets (runThroughRedundancy fileLines targets))).get a) = _
        rw [hcore_nested, hcore_touch]
      · show coreView ((touchAll targets
            (runThroughRedundancy fileLines targets)).get a) = _
        rw [hcore_touch]

theorem resolver_fault_handling_witness :
    process_file_single_pass [("set shared address A1 ip-netmask 10.0.0.1/32".toList)]
        [("A1".toList)] ⟨false, true, false⟩
        = some (processTail [("set shared address A1 ip-netmask 10.0.0.1/32".toList)]
            [("A1".toList)] ⟨false, true, false⟩)
      ∧ ∀ a, coreView ((processTail [("set shared address A1 ip-netmask 10.0.0.1/32".toList)]
            [("A1".toList)] ⟨false, true, false⟩).get a)
          = coreView ((runThroughRedundancy
            [("set shared address A1 ip-netmask 10.0.0.1/32".toList)] [("A1".toList)]).get a) :=
  (resolver_fault_handling [("set shared address A1 ip-netmask 10.0.0.1/32".toList)]
    [("A1".toList)] ⟨false, true, false⟩).2 rfl

/-! ### Claim C6: duplicate group names in `address_groups` -/

/-- C6 counterexample: when the same group name is defined on two distinct
lines (here once shared-scoped and once device-group-scoped), the primary scan
deduplicates by the full descriptor (`parse.py:126`), not by name, so the
target's `address_groups` holds two descriptors with the same `name`. -/
theorem address_groups_duplicate_names :
    agNames [("set shared address-group G static [ X ]".toList),
        ("set device-group DG address-group G static [ X ]".toList)]
      [("X".toList)] ("X".toList) = [("G".toList), ("G".toList)]
    ∧ ¬ (agNames [("set shared address-group G static [ X ]".toList),
        ("set device-group DG address-group G static [ X ]".toList)]
      [("X".toList)] ("X".toList)).Nodup := by
  exact ⟨by decide, by decide⟩

theorem nodup_append_singleton {α : Type} (l : List α) (x : α) (h : l.Nodup)
    (hx : x ∉ l) : (l ++ [x]).Nodup := by
  refine List.Nodup.append h (List.nodup_singleton x) ?_
  intro y hy hyx
  rw [List.mem_singleton] at hyx
  subst hyx
  exact hx hy

theorem Results.get_modify_pred (P : AddressResult → Prop) (t : Results) (a b : Str)
    (f : AddressResult → AddressResult) (hf : ∀ r, P r → P (f r)) (h : P (t.get b)) :
    P ((t.modify a f).get b) := by
  by_cases hb : b = a
  · subst hb
    rw [Results.get_modify_self]
    exact hf _ h
  · rwa [Results.get_modify_ne t a b f hb]

/-- A primary-scan line appends an address-group descriptor only when that
exact descriptor is not yet present, so the list never acquires duplicates. -/
theorem extractItemsUpdate_ag_nodup (line address : Str) (dg? : Option Str)
    (r : AddressResult) (h : r.address_groups.Nodup) :
    (extractItemsUpdate line address dg? r).address_groups.Nodup := by
  show (match extract_address_group line with
    | some ag =>
        if ag ∈ r.address_groups then r.address_groups
        else r.address_groups ++ [ag]
    | none => r.address_groups).Nodup
  rcases extract_address_group line with _ | ag
  · exact h
  · dsimp only
    split
    · exact h
    · rename_i hmem
      exact nodup_append_singleton _ _ h hmem

theorem primaryScan_ag_nodup (fileLines targetSet : List Str) (a : Str) :
    ((primaryScan fileLines targetSet).results.get a).address_groups.Nodup := by
  unfold primaryScan
  have hfold : ∀ st : ScanState, ((st.results.get a)).address_groups.Nodup →
      ∀ lines2 : List Str, (((lines2.foldl (scanLine targetSet) st).results.get a)).address_groups.Nodup := by
    intro st hst lines2
    refine foldl_pred (fun st2 : ScanState => ((st2.results.get a)).address_groups.Nodup)
      (scanLine targetSet) lines2 st ?_ hst
    intro s2 raw _ hP
    unfold scanLine
    dsimp only
    split
    · exact hP
    · refine foldl_pred (fun st2 : ScanState => ((st2.results.get a)).address_groups.Nodup)
        (matchStep (pstrip raw)) _ _ ?_ ?_
      · intro s3 address hmem hP3
        show ((matchStep (pstrip raw) s3 address).results.get a).address_groups.Nodup
        unfold matchStep extract_items_from_line
        dsimp only
        refine Results.get_modify_pred (fun r => r.address_groups.Nodup) _ _ _ _
          (fun r hr => extractItemsUpdate_ag_nodup _ _ _ r hr) ?_
        exact Results.get_modify_pred (fun r => r.address_groups.Nodup) _ _ _ _
          (fun r hr => hr) hP3
      · split
        · dsimp only
          split
          · exact Results.get_modify_pred (fun r => r.address_groups.Nodup) _ _ _ _
              (fun r hr => hr) hP
          · exact hP
        · exact hP
  exact hfold ⟨Results.empty, []⟩ (by simp [Results.get_empty, AddressResult.default]) fileLines

theorem find_nested_ag_nodup (fileLines targets : List Str) (res : Results) (a : Str)
    (h : ((res.get a)).address_groups.Nodup) :
    (((find_nested_address_groups fileLines targets res).get a)).address_groups.Nodup := by
  unfold find_nested_address_groups
  refine foldl_pred (fun r : Results => ((r.get a)).address_groups.Nodup)
    (nestedGroupStep (buildGroupCatalogue fileLines) targets.dedup)
    (buildGroupCatalogue fileLines) res ?_ h
  intro s2 entry _ hP
  show ((nestedGroupStep _ _ s2 entry).get a).address_groups.Nodup
  unfold nestedGroupStep
  refine foldl_pred (fun r : Results => ((r.get a)).address_groups.Nodup)
    (nestedTargetStep entry.2.1) _ s2 ?_ hP
  intro s3 t _ hP3
  show ((nestedTargetStep _ s3 t).get a).address_groups.Nodup
  unfold nestedTargetStep
  split
  · exact hP3
  · rename_i hname
    by_cases hb : a = t
    · subst hb
      rw [Results.get_modify_self]
      show ((s3.get a).address_groups ++ [entry.2.1]).Nodup
      refine nodup_append_singleton _ _ hP3 ?_
      intro hmem
      exact hname (List.mem_map_of_mem (fun g => g.name) hmem)
    · rwa [Results.get_modify_ne _ _ _ _ hb]

/-- C6 (amended): after a full run, `address_groups` never contains two
identical descriptors — the primary scan deduplicates by full descriptor and
the nested resolver by name — but two distinct descriptors may share a `name`
when the same group name is defined on several distinct lines. -/
theorem address_groups_no_duplicate_descriptors (fileLines targets : List Str) (a : Str) :
    ((runStages fileLines targets).get a).address_groups.Nodup := by
  unfold runStages
  dsimp only
  refine find_nested_ag_nodup fileLines targets _ a ?_
  have hind := find_indirect_get_phi (fun r => r.address_groups) (fun _ _ _ _ => rfl)
    fileLines targets (find_redundant_addresses (primaryScan fileLines targets.dedup).ipMap
      targets.dedup (primaryScan fileLines targets.dedup).results) a
  rw [hind]
  have hred := find_redundant_get_phi (fun r => r.address_groups) (fun _ _ => rfl)
    (primaryScan fileLines targets.dedup).ipMap targets.dedup
    (primaryScan fileLines targets.dedup).results a
  rw [hred]
  exact primaryScan_ag_nodup fileLines targets.dedup a

/-! ### Claim C1: direct/indirect rule mutual exclusion -/

/-- No rule name is recorded both directly and indirectly for an address. -/
def IndirectExclusive (t : Results) : Prop :=
  ∀ a r, (alookup (t.get a).indirect_rules r).isSome = true →
    alookup (t.get a).direct_rules r = none

/-- The indirect resolver establishes mutual exclusion: starting from a table
with no indirect rules, it adds a rule for a target only after checking that
the rule is not among the target's direct rules (`parse.py:249-250`), and it
never modifies direct rules. -/
theorem find_indirect_exclusive (fileLines targets : List Str) (res : Results)
    (h0 : ∀ b, (res.get b).indirect_rules = []) :
    IndirectExclusive (find_indirect_rules fileLines targets res) := by
  have hbase : IndirectExclusive (touchAll targets res) := by
    intro a r hir
    rw [touchAll_get] at hir
    rw [h0] at hir
    simp [alookup] at hir
  unfold find_indirect_rules
  dsimp only
  split
  · exact hbase
  · refine foldl_pred IndirectExclusive
      (indirectLine (buildAllGroups targets (touchAll targets res))) fileLines
      (touchAll targets res) ?_ hbase
    intro s2 raw _ hP
    show IndirectExclusive (indirectLine _ s2 raw)
    unfold indirectLine
    dsimp only
    split
    · exact hP
    · split
      · exact hP
      · split
        · exact hP
        · rename_i rule_name ctx heq
          refine foldl_pred IndirectExclusive
            (indirectGroupStep (pstrip raw) rule_name
              ((searchAll mDeviceGroupAt (pstrip raw)).getD dgUnknown)) _ s2 ?_ hP
          intro s3 p _ hP3
          show IndirectExclusive (indirectGroupStep _ _ _ s3 p)
          unfold indirectGroupStep
          split
          · exact hP3
          · rename_i hguard
            intro a r hir
            by_cases hb : a = p.2.2
            · subst hb
              rw [Results.get_modify_self] at hir
              have hcases : r = rule_name ∨
                  (alookup ((s3.get p.2.2)).indirect_rules r).isSome = true :=
                alookup_dinsert_isSome _ _ _ _ hir
              rw [Results.get_modify_self]
              show alookup ((s3.get p.2.2)).direct_rules r = none
              rcases hcases with hr | hsome
              · subst hr
                rcases ho : alookup ((s3.get p.2.2)).direct_rules r with _ | v
                · rfl
                · exact absurd (by rw [ho]; rfl) hguard
              · exact hP3 p.2.2 r hsome
            · rw [Results.get_modify_ne _ _ _ _ hb] at hir
              rw [Results.get_modify_ne _ _ _ _ hb]
              exact hP3 a r hir

/-- C1: after a full run no rule name is a key of both `direct_rules` and
`indirect_rules` of the same address: the indirect resolver skips any rule
name already present in the owning target's direct rules, the primary scan
and redundancy detector never write indirect rules, and the nested resolver
touches neither rule map. -/
theorem direct_indirect_mutual_exclusion (fileLines targets : List Str) (a r : Str) :
    ¬ ((alookup ((runStages fileLines targets).get a).direct_rules r).isSome = true
      ∧ (alookup ((runStages fileLines targets).get a).indirect_rules r).isSome = true) := by
  rintro ⟨hd, hi⟩
  have hmid : runStages fileLines targets
      = find_nested_address_groups fileLines targets
          (find_indirect_rules fileLines targets
            (find_redundant_addresses (primaryScan fileLines targets.dedup).ipMap
              targets.dedup (primaryScan fileLines targets.dedup).results)) := rfl
  rw [hmid] at hd hi
  rw [find_nested_get_phi (fun rec => rec.direct_rules) (fun _ _ => rfl)
    fileLines targets _ a] at hd
  rw [find_nested_get_phi (fun rec => rec.indirect_rules) (fun _ _ => rfl)
    fileLines targets _ a] at hi
  have hpost : ∀ b, ((find_redundant_addresses (primaryScan fileLines targets.dedup).ipMap
      targets.dedup (primaryScan fileLines targets.dedup).results).get b).indirect_rules
        = [] := by
    intro b
    rw [find_redundant_get_phi (fun rec => rec.indirect_rules) (fun _ _ => rfl)
      (primaryScan fileLines targets.dedup).ipMap targets.dedup
      (primaryScan fileLines targets.dedup).results b]
    exact primaryScan_get_phi (fun rec => rec.indirect_rules) (fun _ _ => rfl)
      (fun _ _ => rfl) (fun _ _ _ _ => rfl) fileLines targets.dedup b
  have hinv := find_indirect_exclusive fileLines targets _ hpost a r hi
  rw [hinv] at hd
  exact absurd hd (by simp)

/-! ### Claim C10: later matching lines overwrite earlier rule attributions -/

/-- The (rule name, device group, context) fact one classified line yields
(`parse.py:117-122`). -/
def lineRule (line address : Str) : Option (Str × Str × Str) :=
  match extract_security_rule line address with
  | some (rule_name, context) =>
      some (rule_name, (searchAll mDeviceGroupAt line).getD dgUnknown, context)
  | none => none

/-- The rule fact one raw input line contributes for an address: the line is
stripped, must be nonempty and contain the address as a substring
(`parse.py:63-87`). -/
def lineHit (raw address : Str) : Option (Str × Str × Str) :=
  let line := pstrip raw
  if line.isEmpty then none
  else if containsSub address line then lineRule line address
  else none

/-- All rule facts the file contributes for an address, in file order. -/
def ruleHits (fileLines : List Str) (address : Str) : List (Str × Str × Str) :=
  fileLines.filterMap (fun raw => lineHit raw address)

/-- The (device group, context) of the last hit naming a given rule. -/
def lastRuleHit : List (Str × Str × Str) → Str → Option (Str × Str)
  | [], _ => none
  | h :: t, r =>
      match lastRuleHit t r with
      | some x => some x
      | none => if h.1 = r then some h.2 else none

/-- The (direct_rules, direct_rule_contexts) components of a record. -/
def pairOf (r : AddressResult) : List (Str × Str) × List (Str × Str) :=
  (r.direct_rules, r.direct_rule_contexts)

/-- Applying one rule fact to the two rule maps (dict assignment overwrites). -/
def applyHit (p : List (Str × Str) × List (Str × Str)) (h : Str × Str × Str) :
    List (Str × Str) × List (Str × Str) :=
  (dinsert p.1 h.1 h.2.1, dinsert p.2 h.1 h.2.2)

theorem matchStep_pair_self (line : Str) (st : ScanState) (address : Str) :
    pairOf ((matchStep line st address).results.get address) =
      match lineRule line address with
      | some h => applyHit (pairOf (st.results.get address)) h
      | none => pairOf (st.results.get address) := by
  unfold matchStep extract_items_from_line
  dsimp only
  rw [Results.get_modify_self, Results.get_modify_self]
  unfold lineRule pairOf applyHit extractItemsUpdate appendMatchingLine
  rcases hE : extract_security_rule line address with _ | ⟨rn, c⟩ <;>
    simp only [hE] <;> rfl

theorem matchfold_pair (line : Str) (address : Str) :
    ∀ (l : List Str) (st : ScanState), l.Nodup →
    pairOf (((l.foldl (matchStep line) st)).results.get address) =
      if address ∈ l then
        (match lineRule line address with
          | some h => applyHit (pairOf (st.results.get address)) h
          | none => pairOf (st.results.get address))
      else pairOf (st.results.get address) := by
  intro l
  induction l with
  | nil =>
      intro st _
      rw [if_neg (by simp)]
      rfl
  | cons b t ih =>
      intro st hnd
      rw [List.foldl_cons]
      rcases List.nodup_cons.mp hnd with ⟨hbt, hndt⟩
      have hpres : ∀ (st2 : ScanState) (x : Str), x ≠ address →
          pairOf ((matchStep line st2 x).results.get address)
            = pairOf (st2.results.get address) := by
        intro st2 x hx
        show pairOf ((matchStep line st2 x).results.get address) = _
        unfold matchStep extract_items_from_line
        dsimp only
        rw [Results.get_modify_ne _ _ _ _ (Ne.symm hx),
          Results.get_modify_ne _ _ _ _ (Ne.symm hx)]
      by_cases hb : b = address
      · subst hb
        have hfold : pairOf (((t.foldl (matchStep line)
              (matchStep line st b))).results.get b)
            = pairOf ((matchStep line st b).results.get b) :=
          foldl_phi (fun st2 : ScanState => pairOf (st2.results.get b))
            (matchStep line) t _
            (fun s2 x hxmem => hpres s2 x (fun heq => hbt (heq ▸ hxmem)))
        rw [hfold, matchStep_pair_self, if_pos (List.mem_cons_self _ _)]
      · rw [ih (matchStep line st b) hndt, hpres st b hb]
        by_cases hmem : address ∈ t
        · rw [if_pos hmem, if_pos (List.mem_cons_of_mem _ hmem)]
        · rw [if_neg hmem, if_neg (fun hh =>
            (List.mem_cons.mp hh).elim (fun h1 => hb h1.symm) hmem)]

theorem scanLine_pair (targetSet : List Str) (st : ScanState) (raw : Str) (address : Str)
    (hnd : targetSet.Nodup) (hmem : address ∈ targetSet) :
    pairOf ((scanLine targetSet st raw).results.get address) =
      match lineHit raw address with
      | some h => applyHit (pairOf (st.results.get address)) h
      | none => pairOf (st.results.get address) := by
  unfold scanLine lineHit
  dsimp only
  by_cases hempty : (pstrip raw).isEmpty = true
  · rw [if_pos hempty, if_pos hempty]
  · rw [if_neg hempty, if_neg hempty]
    have hmatchnd : (targetSet.filter (fun a2 => containsSub a2 (pstrip raw))).Nodup :=
      hnd.filter _
    rw [matchfold_pair (pstrip raw) address _ _ hmatchnd]
    rcases hip : searchAll mIpNetmaskAt (pstrip raw) with _ | ⟨n, ip⟩ <;> simp only [hip]
    · by_cases hc : containsSub address (pstrip raw) = true
      · have hyes : address ∈ targetSet.filter (fun a2 => containsSub a2 (pstrip raw)) :=
          List.mem_filter.mpr ⟨hmem, hc⟩
        rw [if_pos hyes, if_pos hc]
      · have hno : address ∉ targetSet.filter (fun a2 => containsSub a2 (pstrip raw)) :=
          fun hh => hc (List.mem_filter.mp hh).2
        rw [if_neg hno, if_neg hc]
    · have hpair : pairOf (((if n ∈ targetSet then
          st.results.modify n (setIpUpdate ip) else st.results)).get address)
          = pairOf (st.results.get address) := by
        split
        · exact Results.get_modify_phi pairOf _ _ _ _ (fun r => rfl)
        · rfl
      rw [hpair]
      by_cases hc : containsSub address (pstrip raw) = true
      · have hyes : address ∈ targetSet.filter (fun a2 => containsSub a2 (pstrip raw)) :=
          List.mem_filter.mpr ⟨hmem, hc⟩
        rw [if_pos hyes, if_pos hc]
      · have hno : address ∉ targetSet.filter (fun a2 => containsSub a2 (pstrip raw)) :=
          fun hh => hc (List.mem_filter.mp hh).2
        rw [if_neg hno, if_neg hc]

theorem primaryScan_pair (fileLines : List Str) (targetSet : List Str) (address : Str)
    (hnd : targetSet.Nodup) (hmem : address ∈ targetSet) :
    pairOf ((primaryScan fileLines targetSet).results.get address) =
      (ruleHits fileLines address).foldl applyHit ([], []) := by
  unfold primaryScan ruleHits
  have hgen : ∀ (lines : List Str) (st : ScanState),
      pairOf (((lines.foldl (scanLine targetSet) st)).results.get address) =
        (lines.filterMap (fun raw => lineHit raw address)).foldl applyHit
          (pairOf (st.results.get address)) := by
    intro lines
    induction lines with
    | nil => intro st; rfl
    | cons raw rest ih =>
        intro st
        rw [List.foldl_cons, ih, scanLine_pair targetSet st raw address hnd hmem]
        rcases hh : lineHit raw address with _ | h <;>
          simp only [hh, List.filterMap_cons, List.foldl_cons]
  rw [hgen fileLines ⟨Results.empty, []⟩]
  rfl

theorem foldl_applyHit_lookup (hits : List (Str × Str × Str)) (r : Str) :
    ∀ p : List (Str × Str) × List (Str × Str),
      (alookup (hits.foldl applyHit p).1 r =
        (match lastRuleHit hits r with
          | some x => some x.1
          | none => alookup p.1 r))
      ∧ (alookup (hits.foldl applyHit p).2 r =
        (match lastRuleHit hits r with
          | some x => some x.2
          | none => alookup p.2 r)) := by
  induction hits with
  | nil => intro p; exact ⟨rfl, rfl⟩
  | cons h t ih =>
      intro p
      rw [List.foldl_cons]
      rcases ih (applyHit p h) with ⟨ih1, ih2⟩
      rw [ih1, ih2]
      show _ ∧ _
      rcases hl : lastRuleHit t r with _ | x
      · dsimp only
        unfold lastRuleHit
        rw [hl]
        dsimp only
        by_cases hr : h.1 = r
        · rw [if_pos hr]
          dsimp only
          constructor
          · show alookup (dinsert p.1 h.1 h.2.1) r = some h.2.1
            rw [← hr]
            exact alookup_dinsert_self _ _ _
          · show alookup (dinsert p.2 h.1 h.2.2) r = some h.2.2
            rw [← hr]
            exact alookup_dinsert_self _ _ _
        · rw [if_neg hr]
          dsimp only
          constructor
          · exact alookup_dinsert_ne _ _ _ _ (Ne.symm hr)
          · exact alookup_dinsert_ne _ _ _ _ (Ne.symm hr)
      · unfold lastRuleHit
        rw [hl]
        exact ⟨rfl, rfl⟩

/-- C10: when several admitted lines yield the same rule name for a target,
the dict assignments at `parse.py:121-122` silently overwrite, so after the
run `direct_rules` holds the device group of the last such line in file order
and `direct_rule_contexts` the context computed from that last line. -/
theorem direct_rules_last_write_wins (fileLines targets : List Str) (address r dg c : Str)
    (hmem : address ∈ targets.dedup)
    (hlast : lastRuleHit (ruleHits fileLines address) r = some (dg, c)) :
    alookup ((runStages fileLines targets).get address).direct_rules r = some dg
    ∧ alookup ((runStages fileLines targets).get address).direct_rule_contexts r = some c := by
  have hmid : runStages fileLines targets
      = find_nested_address_groups fileLines targets
          (find_indirect_rules fileLines targets
            (find_redundant_addresses (primaryScan fileLines targets.dedup).ipMap
              targets.dedup (primaryScan fileLines targets.dedup).results)) := rfl
  have hpair : pairOf ((runStages fileLines targets).get address)
      = pairOf ((primaryScan fileLines targets.dedup).results.get address) := by
    rw [hmid]
    rw [find_nested_get_phi pairOf (fun _ _ => rfl) fileLines targets _ address]
    rw [find_indirect_get_phi pairOf (fun _ _ _ _ => rfl) fileLines targets _ address]
    rw [find_redundant_get_phi pairOf (fun _ _ => rfl) _ _ _ address]
  have hpp := primaryScan_pair fileLines targets.dedup address (List.nodup_dedup targets) hmem
  rcases foldl_applyHit_lookup (ruleHits fileLines address) r ([], []) with ⟨hf1, hf2⟩
  have hd1 : alookup ((runStages fileLines targets).get address).direct_rules r
      = alookup ((ruleHits fileLines address).foldl applyHit ([], [])).1 r := by
    show alookup (pairOf ((runStages fileLines targets).get address)).1 r = _
    rw [hpair, hpp]
  have hd2 : alookup ((runStages fileLines targets).get address).direct_rule_contexts r
      = alookup ((ruleHits fileLines address).foldl applyHit ([], [])).2 r := by
    show alookup (pairOf ((runStages fileLines targets).get address)).2 r = _
    rw [hpair, hpp]
  rw [hd1, hf1, hlast, hd2, hf2, hlast]
  exact ⟨rfl, rfl⟩

theorem direct_rules_last_write_wins_witness :
    alookup ((runStages
        [("set device-group DG1 security-rule R1 source addr1".toList),
          ("set device-group DG2 security-rule R1 destination addr1".toList)]
        [("addr1".toList)]).get ("addr1".toList)).direct_rules ("R1".toList)
      = some ("DG2".toList)
    ∧ alookup ((runStages
        [("set device-group DG1 security-rule R1 source addr1".toList),
          ("set device-group DG2 security-rule R1 destination addr1".toList)]
        [("addr1".toList)]).get ("addr1".toList)).direct_rule_contexts ("R1".toList)
      = some ctxDest :=
  direct_rules_last_write_wins
    [("set device-group DG1 security-rule R1 source addr1".toList),
      ("set device-group DG2 security-rule R1 destination addr1".toList)]
    [("addr1".toList)] ("addr1".toList) ("R1".toList) ("DG2".toList) ctxDest
    (by decide) (by decide)

/-! ### Claim C5: symmetry of redundancy detection -/

/-- The IP-index step of one primary-scan line (`parse.py:67-76`), isolated
from the rest of the scan state. -/
def ipMapStep (m : List (Str × List (Str × Str))) (raw : Str) :
    List (Str × List (Str × Str)) :=
  let line := pstrip raw
  if line.isEmpty then m
  else
    match searchAll mIpNetmaskAt line with
    | some (addr_name, ip) => ipAppend m ip (addr_name, line)
    | none => m

/-- The `ip_to_addresses` index the primary scan hands to the redundancy
detector; it does not depend on the target set. -/
def buildIpMap (fileLines : List Str) : List (Str × List (Str × Str)) :=
  fileLines.foldl ipMapStep []

/-- The (address name, CIDR) definition one line contributes, if any. -/
def ipDefOfLine (raw : Str) : Option (Str × Str) :=
  let line := pstrip raw
  if line.isEmpty then none else searchAll mIpNetmaskAt line

/-- All (address name, CIDR) definitions matched in the file, in file order. -/
def ipDefs (fileLines : List Str) : List (Str × Str) :=
  fileLines.filterMap ipDefOfLine

/-- All defined address names of the index, across every IP value. -/
def flatNames (m : List (Str × List (Str × Str))) : List Str :=
  (m.map (fun e => e.2.map (fun p => p.1))).join

theorem scanLine_ipMap (targetSet : List Str) (st : ScanState) (raw : Str) :
    (scanLine targetSet st raw).ipMap = ipMapStep st.ipMap raw := by
  unfold scanLine ipMapStep
  dsimp only
  split
  · rfl
  · have hfold : ∀ st1 : ScanState,
        (((targetSet.filter (fun a2 => containsSub a2 (pstrip raw))).foldl
          (matchStep (pstrip raw)) st1)).ipMap = st1.ipMap :=
      fun st1 => foldl_phi (fun st2 : ScanState => st2.ipMap) (matchStep (pstrip raw))
        _ st1 (fun s2 b _ => rfl)
    rw [hfold]
    rcases hip : searchAll mIpNetmaskAt (pstrip raw) with _ | ⟨n, ip⟩ <;>
      simp only [hip]

theorem primaryScan_ipMap (fileLines targetSet : List Str) :
    (primaryScan fileLines targetSet).ipMap = buildIpMap fileLines := by
  unfold primaryScan buildIpMap
  have hgen : ∀ (lines : List Str) (st : ScanState),
      ((lines.foldl (scanLine targetSet) st)).ipMap = lines.foldl ipMapStep st.ipMap := by
    intro lines
    induction lines with
    | nil => intro st; rfl
    | cons raw rest ih =>
        intro st
        rw [List.foldl_cons, List.foldl_cons, ih, scanLine_ipMap]
  exact hgen fileLines ⟨Results.empty, []⟩

theorem updAll_keys {α : Type} (k : Str) (g : α → α) (l : List (Str × α)) :
    (updAll k g l).map (fun p => p.1) = l.map (fun p => p.1) := by
  induction l with
  | nil => rfl
  | cons p rest ih =>
      obtain ⟨k1, v1⟩ := p
      by_cases h : k1 = k
      · subst h
        simp [updAll, ih]
      · simp [updAll, h, ih]

theorem updAll_not_mem {α : Type} (k : Str) (g : α → α) (l : List (Str × α))
    (h : ∀ q ∈ l, q.1 ≠ k) : updAll k g l = l := by
  induction l with
  | nil => rfl
  | cons p rest ih =>
      show (if p.1 = k then (k, g p.2) :: updAll k g rest else p :: updAll k g rest) = p :: rest
      rw [if_neg (h p (List.mem_cons_self _ _)),
        ih (fun q hq => h q (List.mem_cons_of_mem _ hq))]

theorem alookup_isSome_iff_mem_keys {α : Type} (m : List (Str × α)) (k : Str) :
    (alookup m k).isSome = true ↔ k ∈ m.map (fun p => p.1) := by
  induction m with
  | nil =>
      constructor
      · intro h
        exact absurd h (by simp [alookup])
      · intro h
        exact absurd h (by simp)
  | cons p rest ih =>
      obtain ⟨k1, v1⟩ := p
      rw [List.map_cons]
      by_cases h : k1 = k
      · subst h
        constructor
        · intro _
          exact List.mem_cons_self _ _
        · intro _
          show (if k1 = k1 then some v1 else alookup rest k1).isSome = true
          rw [if_pos rfl]
          rfl
      · have hlk : alookup ((k1, v1) :: rest) k = alookup rest k := by
          show (if k1 = k then some v1 else alookup rest k) = alookup rest k
          rw [if_neg h]
        rw [hlk, ih]
        constructor
        · exact fun hm => List.mem_cons_of_mem _ hm
        · intro hm
          rcases List.mem_cons.mp hm with h1 | h2
          · exact absurd h1.symm h
          · exact h2

theorem ipAppend_keysNodup (m : List (Str × List (Str × Str))) (ip : Str) (p : Str × Str)
    (h : (m.map (fun e => e.1)).Nodup) :
    ((ipAppend m ip p).map (fun e => e.1)).Nodup := by
  unfold ipAppend
  split
  · rw [updAll_keys]
    exact h
  · rename_i hnone
    rw [List.map_append]
    refine nodup_append_singleton _ _ h (fun hmem => hnone ?_)
    exact (alookup_isSome_iff_mem_keys m ip).mpr hmem

theorem flatNames_cons (e : Str × List (Str × Str)) (rest : List (Str × List (Str × Str))) :
    flatNames (e :: rest) = e.2.map (fun p => p.1) ++ flatNames rest := rfl

theorem flatNames_updAll_append (ip : Str) (p : Str × Str) :
    ∀ m : List (Str × List (Str × Str)), (m.map (fun e => e.1)).Nodup →
      (alookup m ip).isSome = true →
      (flatNames (updAll ip (fun l => l ++ [p]) m)).Perm (flatNames m ++ [p.1]) := by
  intro m
  induction m with
  | nil => intro _ hsome; simp [alookup] at hsome
  | cons e rest ih =>
      intro hnd hsome
      obtain ⟨k1, l1⟩ := e
      rw [List.map_cons] at hnd
      rcases List.nodup_cons.mp hnd with ⟨hk1, hndr⟩
      by_cases hk : k1 = ip
      · subst hk
        show (flatNames (if ((k1, l1) : Str × List (Str × Str)).1 = k1
            then (k1, l1 ++ [p]) :: updAll k1 (fun l => l ++ [p]) rest
            else (k1, l1) :: updAll k1 (fun l => l ++ [p]) rest)).Perm _
        rw [if_pos rfl,
          updAll_not_mem k1 _ rest (fun q hq hqk =>
            hk1 (hqk ▸ List.mem_map_of_mem (fun e2 => e2.1) hq))]
        rw [flatNames_cons, flatNames_cons]
        show ((l1 ++ [p]).map (fun q => q.1) ++ flatNames rest).Perm _
        rw [List.map_append, List.append_assoc]
        calc (l1.map (fun q => q.1) ++ ([p].map (fun q => q.1) ++ flatNames rest)).Perm
              (l1.map (fun q => q.1) ++ (flatNames rest ++ [p].map (fun q => q.1))) :=
              List.Perm.append_left _ (List.perm_append_comm)
          _ = (l1.map (fun q => q.1) ++ flatNames rest) ++ [p.1] := by
              rw [← List.append_assoc]
              rfl
      · show (flatNames (if ((k1, l1) : Str × List (Str × Str)).1 = ip
            then (ip, l1 ++ [p]) :: updAll ip (fun l => l ++ [p]) rest
            else (k1, l1) :: updAll ip (fun l => l ++ [p]) rest)).Perm _
        rw [if_neg hk]
        have hsome2 : (alookup rest ip).isSome = true := by
          have : alookup ((k1, l1) :: rest) ip = alookup rest ip := by
            show (if k1 = ip then some l1 else alookup rest ip) = alookup rest ip
            rw [if_neg hk]
          rwa [this] at hsome
        rw [flatNames_cons, flatNames_cons, List.append_assoc]
        exact List.Perm.append_left _ (ih hndr hsome2)

theorem ipMapStep_eq (m : List (Str × List (Str × Str))) (raw : Str) :
    ipMapStep m raw =
      match ipDefOfLine raw with
      | some (n, ip) => ipAppend m ip (n, pstrip raw)
      | none => m := by
  unfold ipMapStep ipDefOfLine
  dsimp only
  by_cases h : (pstrip raw).isEmpty = true
  · rw [if_pos h, if_pos h]
  · rw [if_neg h, if_neg h]

theorem flatNames_append_singleton (m : List (Str × List (Str × Str)))
    (e : Str × List (Str × Str)) :
    flatNames (m ++ [e]) = flatNames m ++ e.2.map (fun p => p.1) := by
  induction m with
  | nil =>
      show flatNames [e] = flatNames [] ++ e.2.map (fun p => p.1)
      rw [flatNames_cons]
      simp [flatNames]
  | cons q rest ih =>
      rw [List.cons_append, flatNames_cons, flatNames_cons, ih, List.append_assoc]

theorem buildIpMap_flatNames (fileLines : List Str) :
    ((buildIpMap fileLines).map (fun e => e.1)).Nodup
    ∧ (flatNames (buildIpMap fileLines)).Perm ((ipDefs fileLines).map (fun d => d.1)) := by
  have hgen : ∀ (lines : List Str) (m : List (Str × List (Str × Str))),
      (m.map (fun e => e.1)).Nodup →
      ((lines.foldl ipMapStep m).map (fun e => e.1)).Nodup
      ∧ (flatNames (lines.foldl ipMapStep m)).Perm
          (flatNames m ++ (lines.filterMap ipDefOfLine).map (fun d => d.1)) := by
    intro lines
    induction lines with
    | nil =>
        intro m hm
        exact ⟨hm, by simp⟩
    | cons raw rest ih =>
        intro m hm
        rw [List.foldl_cons, List.filterMap_cons, ipMapStep_eq]
        rcases hd : ipDefOfLine raw with _ | ⟨n, ip⟩
        · exact ih m hm
        · dsimp only
          have hm2 := ipAppend_keysNodup m ip (n, pstrip raw) hm
          rcases ih (ipAppend m ip (n, pstrip raw)) hm2 with ⟨h1, h2⟩
          refine ⟨h1, ?_⟩
          have hip : (flatNames (ipAppend m ip (n, pstrip raw))).Perm (flatNames m ++ [n]) := by
            unfold ipAppend
            split
            · rename_i hsome
              exact flatNames_updAll_append ip (n, pstrip raw) m hm hsome
            · rw [flatNames_append_singleton]
              exact List.Perm.refl _
          have hstep2 : (flatNames (ipAppend m ip (n, pstrip raw))
              ++ (rest.filterMap ipDefOfLine).map (fun d => d.1)).Perm
              ((flatNames m ++ [n]) ++ (rest.filterMap ipDefOfLine).map (fun d => d.1)) :=
            hip.append_right _
          have hfin : (flatNames m ++ [n]) ++ (rest.filterMap ipDefOfLine).map (fun d => d.1)
              = flatNames m ++ (((n, ip) :: rest.filterMap ipDefOfLine).map (fun d => d.1)) := by
            rw [List.append_assoc]
            rfl
          exact hfin ▸ (h2.trans hstep2)
  rcases hgen fileLines [] (by simp) with ⟨h1, h2⟩
  refine ⟨h1, ?_⟩
  have hnil : flatNames ([] : List (Str × List (Str × Str)))
      ++ (fileLines.filterMap ipDefOfLine).map (fun d => d.1)
      = (ipDefs fileLines).map (fun d => d.1) := rfl
  exact hnil ▸ h2

theorem mem_flatNames (m : List (Str × List (Str × Str))) (e : Str × List (Str × Str))
    (he : e ∈ m) (x : Str) (hx : x ∈ e.2.map (fun p => p.1)) : x ∈ flatNames m := by
  unfold flatNames
  exact List.mem_join.mpr
    ⟨e.2.map (fun p => p.1), List.mem_map_of_mem (fun e2 => e2.2.map (fun p => p.1)) he, hx⟩

theorem flatNames_entry_unique (m : List (Str × List (Str × Str)))
    (h : (flatNames m).Nodup) (n : Str) :
    ∀ e1 e2, e1 ∈ m → e2 ∈ m → n ∈ e1.2.map (fun p => p.1) → n ∈ e2.2.map (fun p => p.1) →
      e1 = e2 := by
  induction m with
  | nil =>
      intro e1 e2 h1 h2 h3 h4
      exact absurd h1 (by simp)
  | cons e rest ih =>
      intro e1 e2 h1 h2 hn1 hn2
      rw [flatNames_cons] at h
      rcases List.nodup_append.mp h with ⟨hne, hrest, hdisj⟩
      rcases List.mem_cons.mp h1 with rfl | h1r
      · rcases List.mem_cons.mp h2 with rfl | h2r
        · rfl
        · exact absurd (mem_flatNames rest e2 h2r n hn2) (fun hm => hdisj hn1 hm)
      · rcases List.mem_cons.mp h2 with rfl | h2r
        · exact absurd (mem_flatNames rest e1 h1r n hn1) (fun hm => hdisj hn2 hm)
        · exact ih hrest e1 e2 h1r h2r hn1 hn2

/-- The entry whose peer list survives the per-IP overwrites at
`parse.py:212`: the last index entry (in first-seen order) with more than one
definition among which the target occurs. -/
def lastQualifying : List (Str × List (Str × Str)) → Str → Option (Str × List (Str × Str))
  | [], _ => none
  | e :: rest, t =>
      match lastQualifying rest t with
      | some x => some x
      | none =>
          if e.2.length > 1 ∧ e.2.any (fun p => decide (p.1 = t)) = true then some e
          else none

theorem lastQualifying_spec (t : Str) : ∀ (m : List (Str × List (Str × Str)))
    (e : Str × List (Str × Str)), lastQualifying m t = some e →
    e ∈ m ∧ e.2.length > 1 ∧ e.2.any (fun p => decide (p.1 = t)) = true := by
  intro m
  induction m with
  | nil =>
      intro e h
      exact absurd h (by simp [lastQualifying])
  | cons e0 rest ih =>
      intro e h
      rcases hl : lastQualifying rest t with _ | x
      · rw [lastQualifying, hl] at h
        dsimp only at h
        split at h
        · rename_i hq
          rw [Option.some.injEq] at h
          subst h
          exact ⟨List.mem_cons_self _ _, hq⟩
        · exact absurd h (by simp)
      · rw [lastQualifying, hl] at h
        dsimp only at h
        rw [Option.some.injEq] at h
        subst h
        rcases ih x hl with ⟨hm, hq⟩
        exact ⟨List.mem_cons_of_mem _ hm, hq⟩

theorem lastQualifying_isSome (t : Str) : ∀ (m : List (Str × List (Str × Str)))
    (e : Str × List (Str × Str)), e ∈ m →
    e.2.length > 1 → e.2.any (fun p => decide (p.1 = t)) = true →
    (lastQualifying m t).isSome = true := by
  intro m
  induction m with
  | nil =>
      intro e h
      exact absurd h (by simp)
  | cons e0 rest ih =>
      intro e hm hlen hany
      show (match lastQualifying rest t with
        | some x => some x
        | none =>
            if e0.2.length > 1 ∧ e0.2.any (fun p => decide (p.1 = t)) = true then some e0
            else none).isSome = true
      rcases hl : lastQualifying rest t with _ | x
      · dsimp only
        rcases List.mem_cons.mp hm with rfl | hr
        · rw [if_pos ⟨hlen, hany⟩]
          rfl
        · have := ih e hr hlen hany
          rw [hl] at this
          exact absurd this (by simp)
      · rfl

theorem redundantFold_char (entry : Str × List (Str × Str)) (t : Str) :
    ∀ (l : List Str) (res : Results), l.Nodup → t ∈ l →
      ((l.foldl (redundantTargetStep entry) res).get t).redundant_addresses =
        if entry.2.any (fun p => decide (p.1 = t)) = true
        then redundantPeers entry.1 entry.2 t
        else (res.get t).redundant_addresses := by
  intro l
  induction l with
  | nil =>
      intro res _ hmem
      exact absurd hmem (by simp)
  | cons b rest ih =>
      intro res hnd hmem
      rw [List.foldl_cons]
      rcases List.nodup_cons.mp hnd with ⟨hbt, hndr⟩
      have hpres : ∀ (res2 : Results) (x : Str), x ≠ t →
          ((redundantTargetStep entry res2 x).get t).redundant_addresses
            = ((res2.get t)).redundant_addresses := by
        intro res2 x hx
        unfold redundantTargetStep
        split
        · rw [Results.get_modify_ne _ _ _ _ (Ne.symm hx)]
        · rfl
      by_cases hb : b = t
      · subst hb
        have hfold : ((rest.foldl (redundantTargetStep entry)
              (redundantTargetStep entry res b)).get b).redundant_addresses
            = ((redundantTargetStep entry res b).get b).redundant_addresses :=
          foldl_phi (fun r2 : Results => ((r2.get b)).redundant_addresses) _ rest _
            (fun s2 x hxm => hpres s2 x (fun he => hbt (he ▸ hxm)))
        rw [hfold]
        unfold redundantTargetStep
        split
        · rw [Results.get_modify_self]
          rfl
        · rfl
      · have htr : t ∈ rest := (List.mem_cons.mp hmem).resolve_left (fun hh => hb hh.symm)
        rw [ih (redundantTargetStep entry res b) hndr htr, hpres res b hb]

theorem find_redundant_char (targetSet : List Str) (t : Str)
    (hnd : targetSet.Nodup) (hmem : t ∈ targetSet) :
    ∀ (ipMap : List (Str × List (Str × Str))) (res : Results),
      ((find_redundant_addresses ipMap targetSet res).get t).redundant_addresses =
        match lastQualifying ipMap t with
        | some e => redundantPeers e.1 e.2 t
        | none => (res.get t).redundant_addresses := by
  intro ipMap
  induction ipMap with
  | nil => intro res; rfl
  | cons e rest ih =>
      intro res
      have hfr : find_redundant_addresses (e :: rest) targetSet res
          = find_redundant_addresses rest targetSet (redundantIpStep targetSet res e) := rfl
      rw [hfr, ih (redundantIpStep targetSet res e)]
      have hstep : ((redundantIpStep targetSet res e).get t).redundant_addresses =
          if e.2.length > 1 ∧ e.2.any (fun p => decide (p.1 = t)) = true
          then redundantPeers e.1 e.2 t
          else ((res.get t)).redundant_addresses := by
        unfold redundantIpStep
        split
        · rename_i hlen
          rw [redundantFold_char e t targetSet res hnd hmem]
          by_cases hany : e.2.any (fun p => decide (p.1 = t)) = true
          · rw [if_pos hany, if_pos ⟨hlen, hany⟩]
          · rw [if_neg hany, if_neg (fun hq => hany hq.2)]
        · rename_i hlen
          rw [if_neg (fun hq => hlen hq.1)]
      rcases hl : lastQualifying rest t with _ | x
      · rw [hstep]
        show _ = (match lastQualifying (e :: rest) t with
          | some e2 => redundantPeers e2.1 e2.2 t
          | none => ((res.get t)).redundant_addresses)
        rw [lastQualifying, hl]
        dsimp only
        by_cases hq : e.2.length > 1 ∧ e.2.any (fun p => decide (p.1 = t)) = true
        · rw [if_pos hq, if_pos hq]
        · rw [if_neg hq, if_neg hq]
      · show _ = (match lastQualifying (e :: rest) t with
          | some e2 => redundantPeers e2.1 e2.2 t
          | none => ((res.get t)).redundant_addresses)
        rw [lastQualifying, hl]

theorem any_name_iff (l : List (Str × Str)) (t : Str) :
    l.any (fun p => decide (p.1 = t)) = true ↔ t ∈ l.map (fun p => p.1) := by
  rw [List.any_eq_true]
  constructor
  · rintro ⟨p, hp, hdec⟩
    rw [decide_eq_true_eq] at hdec
    exact hdec ▸ List.mem_map_of_mem (fun q => q.1) hp
  · intro hm
    rcases List.mem_map.mp hm with ⟨p, hp, hpt⟩
    exact ⟨p, hp, by rw [decide_eq_true_eq]; exact hpt⟩

theorem mem_redundantPeers (ip : Str) (l : List (Str × Str)) (t x : Str)
    (hx : x ∈ l.map (fun p => p.1)) (hxt : x ≠ t) :
    ∃ e ∈ redundantPeers ip l t, e.name = x := by
  rcases List.mem_map.mp hx with ⟨p, hp, hpx⟩
  refine ⟨⟨x, ip, dgOfDefLine p.2⟩, ?_, rfl⟩
  unfold redundantPeers
  refine List.mem_filterMap.mpr ⟨p, hp, ?_⟩
  rw [if_neg (by rw [hpx]; exact hxt), hpx]

theorem redundantPeers_name (ip : Str) (l : List (Str × Str)) (t : Str) (e : RedundantEntry)
    (he : e ∈ redundantPeers ip l t) :
    e.name ∈ l.map (fun p => p.1) ∧ e.name ≠ t := by
  rcases List.mem_filterMap.mp he with ⟨p, hp, hpe⟩
  by_cases h : p.1 = t
  · rw [if_pos h] at hpe
    exact absurd hpe (by simp)
  · rw [if_neg h] at hpe
    rw [Option.some.injEq] at hpe
    subst hpe
    exact ⟨List.mem_map_of_mem (fun q => q.1) hp, h⟩

/-- The redundant-address list a full run leaves for a target, in terms of the
IP index: the peer list of the last qualifying index entry. -/
theorem runStages_redundant (fileLines targets : List Str) (t : Str)
    (hmem : t ∈ targets) :
    ((runStages fileLines targets).get t).redundant_addresses =
      match lastQualifying (buildIpMap fileLines) t with
      | some e => redundantPeers e.1 e.2 t
      | none => [] := by
  have hmid : runStages fileLines targets
      = find_nested_address_groups fileLines targets
          (find_indirect_rules fileLines targets
            (find_redundant_addresses (primaryScan fileLines targets.dedup).ipMap
              targets.dedup (primaryScan fileLines targets.dedup).results)) := rfl
  rw [hmid,
    find_nested_get_phi (fun r => r.redundant_addresses) (fun _ _ => rfl) _ _ _ t,
    find_indirect_get_phi (fun r => r.redundant_addresses) (fun _ _ _ _ => rfl) _ _ _ t,
    find_redundant_char targets.dedup t (List.nodup_dedup targets)
      (List.mem_dedup.mpr hmem) _ _,
    primaryScan_ipMap]
  rcases hl : lastQualifying (buildIpMap fileLines) t with _ | e
  · dsimp only
    exact primaryScan_get_phi (fun r => r.redundant_addresses) (fun _ _ => rfl)
      (fun _ _ => rfl) (fun _ _ _ _ => rfl) fileLines targets.dedup t
  · rfl

/-- The counterexample input for redundancy symmetry: name A is defined twice
with different IP/netmask values, sharing its first value with B and its
second with C. -/
def cexLines : List Str :=
  [("set shared address A ip-netmask 1.1.1.1/32".toList),
    ("set shared address B ip-netmask 1.1.1.1/32".toList),
    ("set shared address A ip-netmask 2.2.2.2/32".toList),
    ("set shared address C ip-netmask 2.2.2.2/32".toList)]

/-- C5 counterexample: redundancy detection is not symmetric when an address
name is defined under more than one IP value.  A run targeting B lists A as
redundant (they share 1.1.1.1/32), but a run targeting A lists only C: the
assignment at `parse.py:212` overwrites A's peer list per qualifying IP value,
so the 2.2.2.2/32 group (where B does not occur) wins. -/
theorem redundancy_not_symmetric :
    (∃ e ∈ ((runStages cexLines [("B".toList)]).get ("B".toList)).redundant_addresses,
      e.name = ("A".toList))
    ∧ ¬ (∃ e ∈ ((runStages cexLines [("A".toList)]).get ("A".toList)).redundant_addresses,
      e.name = ("B".toList)) := by
  constructor
  · decide
  · decide

/-- C5 (amended): redundancy detection is symmetric set-wise provided every
address name occurs in at most one IP/netmask definition line.  Then each name
occurs in at most one entry of the IP index, the per-target overwrite at
`parse.py:212` is harmless, and A ∈ redundant(B) implies B ∈ redundant(A)
for runs over the same input targeting B resp. A.  When a name is defined
under several IP values the later qualifying value overwrites the earlier
peer list and symmetry can fail (see the counterexample). -/
theorem redundancy_symmetric_of_unique_defs (fileLines tsB tsA : List Str) (A B : Str)
    (hnd : ((ipDefs fileLines).map (fun d => d.1)).Nodup)
    (hB : B ∈ tsB) (hA : A ∈ tsA)
    (hAB : ∃ e ∈ ((runStages fileLines tsB).get B).redundant_addresses, e.name = A) :
    ∃ e ∈ ((runStages fileLines tsA).get A).redundant_addresses, e.name = B := by
  rcases buildIpMap_flatNames fileLines with ⟨hkeys, hperm⟩
  have hflat : (flatNames (buildIpMap fileLines)).Nodup := hperm.nodup_iff.mpr hnd
  rw [runStages_redundant fileLines tsB B hB] at hAB
  rcases hl : lastQualifying (buildIpMap fileLines) B with _ | eB
  · rw [hl] at hAB
    simp at hAB
  · rw [hl] at hAB
    dsimp only at hAB
    rcases hAB with ⟨e, he, hename⟩
    have hepn := redundantPeers_name eB.1 eB.2 B e he
    rw [hename] at hepn
    rcases hepn with ⟨hAmem, hAneB⟩
    rcases lastQualifying_spec B (buildIpMap fileLines) eB hl with ⟨heBmem, hlen, hanyB⟩
    have hanyA : eB.2.any (fun p => decide (p.1 = A)) = true :=
      (any_name_iff eB.2 A).mpr hAmem
    have hsomeA := lastQualifying_isSome A (buildIpMap fileLines) eB heBmem hlen hanyA
    rw [runStages_redundant fileLines tsA A hA]
    rcases hlA : lastQualifying (buildIpMap fileLines) A with _ | eA
    · rw [hlA] at hsomeA
      exact absurd hsomeA (by simp)
    · dsimp only
      rcases lastQualifying_spec A (buildIpMap fileLines) eA hlA with ⟨heAmem, hlenA, hanyA2⟩
      have heq : eA = eB :=
        flatNames_entry_unique (buildIpMap fileLines) hflat A eA eB heAmem heBmem
          ((any_name_iff eA.2 A).mp hanyA2) hAmem
      have hBmem : B ∈ eA.2.map (fun p => p.1) := by
        rw [heq]
        exact (any_name_iff eB.2 B).mp hanyB
      exact mem_redundantPeers eA.1 eA.2 A B hBmem (Ne.symm hAneB)

theorem redundancy_symmetric_of_unique_defs_witness :
    ∃ e ∈ ((runStages
        [("set shared address address1 ip-netmask 10.0.0.1/32".toList),
          ("set shared address address2 ip-netmask 10.0.0.1/32".toList)]
        [("address2".toList)]).get ("address2".toList)).redundant_addresses,
      e.name = ("address1".toList) :=
  redundancy_symmetric_of_unique_defs
    [("set shared address address1 ip-netmask 10.0.0.1/32".toList),
      ("set shared address address2 ip-netmask 10.0.0.1/32".toList)]
    [("address1".toList)] [("address2".toList)] ("address2".toList) ("address1".toList)
    (by decide) (by decide) (by decide) (by decide)

/-! ### Claim C8: targets with no matching line -/

theorem containsSub_iff (sep s : Str) : containsSub sep s = true ↔ sep <:+: s := by
  unfold containsSub
  induction s with
  | nil =>
      show ((if sep.isEmpty then some 0 else none : Option Nat)).isSome = true ↔ _
      by_cases he : sep.isEmpty = true
      · rw [if_pos he, List.isEmpty_iff.mp he]
        simp
      · rw [if_neg he]
        constructor
        · intro h
          exact absurd h (by simp)
        · intro h
          exact absurd (List.isEmpty_iff.mpr (List.infix_nil.mp h)) he
  | cons c rest ih =>
      show ((if sep.isPrefixOf (c :: rest) then some 0
          else (findSub sep rest).map (· + 1)).isSome) = true ↔ _
      by_cases hp : sep.isPrefixOf (c :: rest) = true
      · rw [if_pos hp]
        simp only [Option.isSome_some, true_iff]
        exact (List.isPrefixOf_iff_prefix.mp hp).isInfix
      · rw [if_neg hp, Option.isSome_map']
        rw [show (findSub sep rest).isSome = containsSub sep rest from rfl] at ih ⊢
        rw [ih]
        constructor
        · exact fun h => h.trans (List.suffix_cons c rest).isInfix
        · intro h
          rcases List.infix_cons_iff.mp h with hpre | hrest
          · exact absurd (List.isPrefixOf_iff_prefix.mpr hpre) hp
          · exact hrest

theorem pstrip_within (s : Str) : pstrip s <:+: s := by
  unfold pstrip
  have h1 : s.dropWhile isSpace <:+ s := List.dropWhile_suffix isSpace
  have h3 : (s.dropWhile isSpace).reverse.dropWhile isSpace <:+ (s.dropWhile isSpace).reverse :=
    List.dropWhile_suffix isSpace
  have h2 : ((s.dropWhile isSpace).reverse.dropWhile isSpace).reverse <+: s.dropWhile isSpace := by
    rw [← List.reverse_suffix, List.reverse_reverse]
    exact h3
  exact h2.isInfix.trans h1.isInfix

theorem lit_suffix (w s r : Str) (h : lit w s = some r) : r <:+ s := by
  unfold lit at h
  split at h
  · rw [Option.some.injEq] at h
    subst h
    exact List.drop_suffix _ _
  · exact absurd h (by simp)

theorem ws1_suffix (s r : Str) (h : ws1 s = some r) : r <:+ s := by
  unfold ws1 at h
  rcases s with _ | ⟨c, rest⟩
  · exact absurd h (by simp)
  · dsimp only at h
    split at h
    · rw [Option.some.injEq] at h
      subst h
      exact List.dropWhile_suffix isSpace
    · exact absurd h (by simp)

theorem tok_parts (s t r : Str) (h : tok s = some (t, r)) : t <+: s ∧ r <:+ s := by
  unfold tok at h
  dsimp only at h
  split at h
  · exact absurd h (by simp)
  · rw [Option.some.injEq, Prod.mk.injEq] at h
    rcases h with ⟨ht, hr⟩
    subst ht
    subst hr
    exact ⟨List.takeWhile_prefix _, List.drop_suffix _ _⟩

theorem staticTail_within (s d : Str) (h : staticTail s = some d) : d <:+: s := by
  unfold staticTail at h
  dsimp only at h
  split at h
  · exact absurd h (by simp)
  · split at h
    · rw [Option.some.injEq] at h
      subst h
      exact (List.drop_suffix _ _).isInfix
    · split at h
      · rw [Option.some.injEq] at h
        subst h
        exact ((List.drop_suffix _ _).isInfix).trans (List.takeWhile_prefix isSpace).isInfix
      · exact absurd h (by simp)

theorem searchAll_suffix {α : Type} (f : Str → Option α) :
    ∀ (s : Str) (a : α), searchAll f s = some a → ∃ s2, s2 <:+ s ∧ f s2 = some a := by
  intro s
  induction s with
  | nil =>
      intro a h
      exact ⟨[], List.suffix_refl _, h⟩
  | cons c rest ih =>
      intro a h
      rw [searchAll] at h
      rcases hf : f (c :: rest) with _ | a2
      · rw [hf] at h
        dsimp only at h
        rcases ih a h with ⟨s2, hs, hfs⟩
        exact ⟨s2, hs.trans (List.suffix_cons c rest), hfs⟩
      · rw [hf] at h
        dsimp only at h
        rw [Option.some.injEq] at h
        subst h
        exact ⟨c :: rest, List.suffix_refl _, hf⟩


theorem mIpTailAt_name (s : Str) (n ip : Str) (h : mIpTailAt s = some (n, ip)) : n <:+: s := by
  unfold mIpTailAt at h
  rcases h1 : lit ("address".toList) s with _ | s1 <;> simp only [h1, reduceCtorEq] at h
  rcases h2 : ws1 s1 with _ | s2 <;> simp only [h2, reduceCtorEq] at h
  rcases h3 : tok s2 with _ | ⟨t3, s3⟩ <;> simp only [h3, reduceCtorEq] at h
  rcases h4 : ws1 s3 with _ | s4 <;> simp only [h4, reduceCtorEq] at h
  rcases h5 : lit ("ip-netmask".toList) s4 with _ | s5 <;> simp only [h5, reduceCtorEq] at h
  rcases h6 : ws1 s5 with _ | s6 <;> simp only [h6, reduceCtorEq] at h
  rcases h7 : ipCap s6 with _ | v <;>
    simp only [h7, Option.map, Option.some.injEq, Prod.mk.injEq, reduceCtorEq] at h
  rcases h with ⟨hn, _⟩
  subst hn
  exact ((tok_parts s2 t3 s3 h3).1.isInfix).trans
    (((ws1_suffix s1 s2 h2).trans (lit_suffix _ s s1 h1)).isInfix)

theorem mIpNetmaskAt_name (s : Str) (n ip : Str) (h : mIpNetmaskAt s = some (n, ip)) :
    n <:+: s := by
  unfold mIpNetmaskAt at h
  rcases h1 : lit ("set".toList) s with _ | s1 <;> simp only [h1, reduceCtorEq] at h
  rcases h2 : ws1 s1 with _ | s2 <;> simp only [h2, reduceCtorEq] at h
  have hs2 : s2 <:+ s := (ws1_suffix s1 s2 h2).trans (lit_suffix _ s s1 h1)
  rcases h3 : lit ("shared".toList) s2 with _ | s3 <;> simp only [h3, reduceCtorEq] at h
  · rcases hd1 : lit ("device-group".toList) s2 with _ | d1 <;>
      simp only [hd1, reduceCtorEq] at h
    rcases hd2 : ws1 d1 with _ | d2 <;> simp only [hd2, reduceCtorEq] at h
    rcases hd3 : tok d2 with _ | ⟨dt, d3⟩ <;> simp only [hd3, reduceCtorEq] at h
    rcases hd4 : ws1 d3 with _ | d4 <;> simp only [hd4, reduceCtorEq] at h
    exact (mIpTailAt_name d4 n ip h).trans
      ((((ws1_suffix d3 d4 hd4).trans (tok_parts d2 dt d3 hd3).2).trans
        ((ws1_suffix d1 d2 hd2).trans (lit_suffix _ s2 d1 hd1))).trans hs2).isInfix
  · rcases h4 : ws1 s3 with _ | s4 <;> simp only [h4, reduceCtorEq] at h
    · rcases hd1 : lit ("device-group".toList) s2 with _ | d1 <;>
        simp only [hd1, reduceCtorEq] at h
      rcases hd2 : ws1 d1 with _ | d2 <;> simp only [hd2, reduceCtorEq] at h
      rcases hd3 : tok d2 with _ | ⟨dt, d3⟩ <;> simp only [hd3, reduceCtorEq] at h
      rcases hd4 : ws1 d3 with _ | d4 <;> simp only [hd4, reduceCtorEq] at h
      exact (mIpTailAt_name d4 n ip h).trans
        ((((ws1_suffix d3 d4 hd4).trans (tok_parts d2 dt d3 hd3).2).trans
          ((ws1_suffix d1 d2 hd2).trans (lit_suffix _ s2 d1 hd1))).trans hs2).isInfix
    · rcases h5 : mIpTailAt s4 with _ | v <;> simp only [h5, Option.some.injEq] at h
      · rcases hd1 : lit ("device-group".toList) s2 with _ | d1 <;>
          simp only [hd1, reduceCtorEq] at h
        rcases hd2 : ws1 d1 with _ | d2 <;> simp only [hd2, reduceCtorEq] at h
        rcases hd3 : tok d2 with _ | ⟨dt, d3⟩ <;> simp only [hd3, reduceCtorEq] at h
        rcases hd4 : ws1 d3 with _ | d4 <;> simp only [hd4, reduceCtorEq] at h
        exact (mIpTailAt_name d4 n ip h).trans
          ((((ws1_suffix d3 d4 hd4).trans (tok_parts d2 dt d3 hd3).2).trans
            ((ws1_suffix d1 d2 hd2).trans (lit_suffix _ s2 d1 hd1))).trans hs2).isInfix
      · subst h
        exact (mIpTailAt_name s4 n ip h5).trans
          (((ws1_suffix s3 s4 h4).trans ((lit_suffix _ s2 s3 h3).trans hs2)).isInfix)

theorem mAGSharedAt_parts (s : Str) (n d : Str) (h : mAGSharedAt s = some (n, d)) :
    n <:+: s ∧ d <:+: s := by
  unfold mAGSharedAt at h
  rcases h1 : lit ("set".toList) s with _ | s1 <;> simp only [h1, reduceCtorEq] at h
  rcases h2 : ws1 s1 with _ | s2 <;> simp only [h2, reduceCtorEq] at h
  rcases h3 : lit ("shared".toList) s2 with _ | s3 <;> simp only [h3, reduceCtorEq] at h
  rcases h4 : ws1 s3 with _ | s4 <;> simp only [h4, reduceCtorEq] at h
  rcases h5 : lit ("address-group".toList) s4 with _ | s5 <;> simp only [h5, reduceCtorEq] at h
  rcases h6 : ws1 s5 with _ | s6 <;> simp only [h6, reduceCtorEq] at h
  rcases h7 : tok s6 with _ | ⟨t7, s7⟩ <;> simp only [h7, reduceCtorEq] at h
  rcases h8 : ws1 s7 with _ | s8 <;> simp only [h8, reduceCtorEq] at h
  rcases h9 : lit ("static".toList) s8 with _ | s9 <;> simp only [h9, reduceCtorEq] at h
  rcases h10 : staticTail s9 with _ | dd <;>
    simp only [h10, Option.map, Option.some.injEq, Prod.mk.injEq, reduceCtorEq] at h
  rcases h with ⟨hn, hd⟩
  subst hn
  subst hd
  have hs6 : s6 <:+ s :=
    ((((ws1_suffix s5 s6 h6).trans (lit_suffix _ s4 s5 h5)).trans
      ((ws1_suffix s3 s4 h4).trans (lit_suffix _ s2 s3 h3))).trans
        ((ws1_suffix s1 s2 h2).trans (lit_suffix _ s s1 h1)))
  refine ⟨((tok_parts s6 t7 s7 h7).1.isInfix).trans hs6.isInfix, ?_⟩
  exact ((staticTail_within s9 dd h10).trans (lit_suffix _ s8 s9 h9).isInfix).trans
    (((ws1_suffix s7 s8 h8).trans ((tok_parts s6 t7 s7 h7).2.trans hs6)).isInfix)

theorem mAGDeviceAt_parts (s : Str) (dg n d : Str) (h : mAGDeviceAt s = some (dg, n, d)) :
    n <:+: s ∧ d <:+: s := by
  unfold mAGDeviceAt at h
  rcases h1 : lit ("set".toList) s with _ | s1 <;> simp only [h1, reduceCtorEq] at h
  rcases h2 : ws1 s1 with _ | s2 <;> simp only [h2, reduceCtorEq] at h
  rcases h3 : lit ("device-group".toList) s2 with _ | s3 <;> simp only [h3, reduceCtorEq] at h
  rcases h4 : ws1 s3 with _ | s4 <;> simp only [h4, reduceCtorEq] at h
  rcases h5 : tok s4 with _ | ⟨t5, s5⟩ <;> simp only [h5, reduceCtorEq] at h
  rcases h6 : ws1 s5 with _ | s6 <;> simp only [h6, reduceCtorEq] at h
  rcases h7 : lit ("address-group".toList) s6 with _ | s7 <;> simp only [h7, reduceCtorEq] at h
  rcases h8 : ws1 s7 with _ | s8 <;> simp only [h8, reduceCtorEq] at h
  rcases h9 : tok s8 with _ | ⟨t9, s9⟩ <;> simp only [h9, reduceCtorEq] at h
  rcases h10 : ws1 s9 with _ | s10 <;> simp only [h10, reduceCtorEq] at h
  rcases h11 : lit ("static".toList) s10 with _ | s11 <;> simp only [h11, reduceCtorEq] at h
  rcases h12 : staticTail s11 with _ | dd <;>
    simp only [h12, Option.map, Option.some.injEq, Prod.mk.injEq, reduceCtorEq] at h
  rcases h with ⟨_, hn, hd⟩
  subst hn
  subst hd
  have hs8 : s8 <:+ s :=
    ((((ws1_suffix s7 s8 h8).trans (lit_suffix _ s6 s7 h7)).trans
      ((ws1_suffix s5 s6 h6).trans (tok_parts s4 t5 s5 h5).2)).trans
      (((ws1_suffix s3 s4 h4).trans (lit_suffix _ s2 s3 h3)).trans
        ((ws1_suffix s1 s2 h2).trans (lit_suffix _ s s1 h1))))
  refine ⟨((tok_parts s8 t9 s9 h9).1.isInfix).trans hs8.isInfix, ?_⟩
  exact ((staticTail_within s11 dd h12).trans (lit_suffix _ s10 s11 h11).isInfix).trans
    (((ws1_suffix s9 s10 h10).trans ((tok_parts s8 t9 s9 h9).2.trans hs8)).isInfix)

/-- If `a` occurs nowhere in `s`, it occurs nowhere in any infix of `s`. -/
theorem containsSub_of_within (a s t : Str) (hns : containsSub a s = false)
    (ht : t <:+: s) (hat : a <:+: t) : False := by
  have := (containsSub_iff a s).mpr (hat.trans ht)
  rw [hns] at this
  exact Bool.false_ne_true this

theorem wsSplitAux_within (s : Str) : ∀ (acc t : Str), t ∈ wsSplitAux s acc →
    t <:+: acc.reverse ++ s := by
  induction s with
  | nil =>
      intro acc t h
      rw [wsSplitAux] at h
      split at h
      · exact absurd h (by simp)
      · rw [List.mem_singleton] at h
        subst h
        exact (List.prefix_append _ _).isInfix
  | cons c rest ih =>
      intro acc t h
      rw [wsSplitAux] at h
      split at h
      · split at h
        · have := ih [] t h
          simp only [List.reverse_nil, List.nil_append] at this
          exact this.trans ((List.suffix_cons c rest).isInfix.trans
            (List.suffix_append acc.reverse (c :: rest)).isInfix)
        · rcases List.mem_cons.mp h with rfl | h2
          · exact ((List.prefix_append acc.reverse (c :: rest)).isInfix)
          · have := ih [] t h2
            simp only [List.reverse_nil, List.nil_append] at this
            exact this.trans ((List.suffix_cons c rest).isInfix.trans
              (List.suffix_append acc.reverse (c :: rest)).isInfix)
      · have := ih (c :: acc) t h
        rw [List.reverse_cons, List.append_assoc] at this
        exact this

theorem wsSplit_within (s t : Str) (h : t ∈ wsSplit s) : t <:+: s := by
  have := wsSplitAux_within s [] t h
  simpa using this

theorem parse_group_members_within (d m : Str) (h : m ∈ parse_group_members d) :
    m <:+: d := by
  unfold parse_group_members at h
  dsimp only at h
  split at h
  · have h1 : m <:+: ((pstrip d).drop 1).dropLast := wsSplit_within _ m h
    have h2 : ((pstrip d).drop 1).dropLast <:+: pstrip d :=
      (List.dropLast_prefix _).isInfix.trans (List.drop_suffix 1 (pstrip d)).isInfix
    exact (h1.trans h2).trans (pstrip_within d)
  · exact (wsSplit_within _ m h).trans (pstrip_within d)

theorem updAll_const_mem {α : Type} (l : List (Str × α)) (k : Str) (v : α) (x : Str × α)
    (h : x ∈ updAll k (fun _ => v) l) : x ∈ l ∨ x = (k, v) := by
  induction l with
  | nil => exact absurd h (by simp [updAll])
  | cons p rest ih =>
      rw [updAll] at h
      split at h
      · rcases List.mem_cons.mp h with rfl | h2
        · exact Or.inr rfl
        · rcases ih h2 with h3 | h3
          · exact Or.inl (List.mem_cons_of_mem _ h3)
          · exact Or.inr h3
      · rcases List.mem_cons.mp h with rfl | h2
        · exact Or.inl (List.mem_cons_self _ _)
        · rcases ih h2 with h3 | h3
          · exact Or.inl (List.mem_cons_of_mem _ h3)
          · exact Or.inr h3

theorem dinsert_mem {α : Type} (d : List (Str × α)) (k : Str) (v : α) (x : Str × α)
    (h : x ∈ dinsert d k v) : x ∈ d ∨ x = (k, v) := by
  unfold dinsert at h
  split at h
  · exact updAll_const_mem d k v x h
  · rcases List.mem_append.mp h with h2 | h2
    · exact Or.inl h2
    · exact Or.inr (List.mem_singleton.mp h2)

/-- A name put into the IP index always occurs in the defining raw line. -/
theorem ipDefOfLine_name_within (raw n ip : Str) (h : ipDefOfLine raw = some (n, ip)) :
    n <:+: raw := by
  unfold ipDefOfLine at h
  dsimp only at h
  split at h
  · exact absurd h (by simp)
  · rcases searchAll_suffix mIpNetmaskAt (pstrip raw) (n, ip) h with ⟨s2, hs2, hm⟩
    exact ((mIpNetmaskAt_name s2 n ip hm).trans hs2.isInfix).trans (pstrip_within raw)

/-- If `addr` occurs in no input line, no entry of the IP index carries it as a
defined name. -/
theorem buildIpMap_no_name (fileLines : List Str) (addr : Str)
    (hnone : ∀ raw ∈ fileLines, containsSub addr raw = false) :
    ∀ e ∈ buildIpMap fileLines, ∀ p ∈ e.2, p.1 ≠ addr := by
  intro e he p hp hcontra
  have hflat : addr ∈ flatNames (buildIpMap fileLines) :=
    mem_flatNames _ e he addr (hcontra ▸ List.mem_map_of_mem (fun q => q.1) hp)
  have hdefs : addr ∈ (ipDefs fileLines).map (fun d => d.1) :=
    ((buildIpMap_flatNames fileLines).2.mem_iff).mp hflat
  rcases List.mem_map.mp hdefs with ⟨d, hd, hd1⟩
  rcases List.mem_filterMap.mp hd with ⟨raw, hraw, hdef⟩
  obtain ⟨n, ip⟩ := d
  have hinf : addr <:+: raw := hd1 ▸ ipDefOfLine_name_within raw n ip hdef
  have := (containsSub_iff addr raw).mpr hinf
  rw [hnone raw hraw] at this
  exact Bool.false_ne_true this

/-- If `addr` occurs in no input line, the primary scan never creates its
record. -/
theorem primaryScan_find_none (fileLines targetSet : List Str) (addr : Str)
    (hnone : ∀ raw ∈ fileLines, containsSub addr raw = false) :
    (primaryScan fileLines targetSet).results.find? addr = none := by
  unfold primaryScan
  refine foldl_pred (fun st : ScanState => st.results.find? addr = none)
    (scanLine targetSet) fileLines ⟨Results.empty, []⟩ ?_ rfl
  intro st raw hraw hP
  have hline : containsSub addr (pstrip raw) = false := by
    by_contra hc
    have hc2 : containsSub addr (pstrip raw) = true := by
      rcases Bool.eq_false_or_eq_true (containsSub addr (pstrip raw)) with h1 | h1
      · exact h1
      · exact absurd h1 hc
    have := (containsSub_iff addr raw).mpr
      (((containsSub_iff addr (pstrip raw)).mp hc2).trans (pstrip_within raw))
    rw [hnone raw hraw] at this
    exact Bool.false_ne_true this
  show (scanLine targetSet st raw).results.find? addr = none
  unfold scanLine
  dsimp only
  split
  · exact hP
  · refine foldl_pred (fun st2 : ScanState => st2.results.find? addr = none)
      (matchStep (pstrip raw)) _ _ ?_ ?_
    · intro s2 a ha hP2
      have hne : addr ≠ a := by
        intro he
        rcases List.mem_filter.mp ha with ⟨_, hc⟩
        rw [← he, hline] at hc
        exact Bool.false_ne_true hc
      show (matchStep (pstrip raw) s2 a).results.find? addr = none
      unfold matchStep extract_items_from_line
      dsimp only
      rw [Results.find?_modify_ne _ _ _ _ hne, Results.find?_modify_ne _ _ _ _ hne]
      exact hP2
    · split
      · rename_i addr_name ip heq
        have hne : addr ≠ addr_name := by
          intro he
          rcases searchAll_suffix mIpNetmaskAt (pstrip raw) (addr_name, ip) heq with
            ⟨s2, hs2, hm⟩
          have : containsSub addr (pstrip raw) = true :=
            (containsSub_iff addr (pstrip raw)).mpr
              (he ▸ ((mIpNetmaskAt_name s2 addr_name ip hm).trans hs2.isInfix))
          rw [hline] at this
          exact Bool.false_ne_true this
        dsimp only
        split
        · show (st.results.modify addr_name (setIpUpdate ip)).find? addr = none
          rw [Results.find?_modify_ne _ _ _ _ hne]
          exact hP
        · exact hP
      · exact hP

/-- The redundancy detector leaves an absent record absent when no index entry
names that address. -/
theorem find_redundant_find_none (ipMap : List (Str × List (Str × Str)))
    (targetSet : List Str) (res : Results) (addr : Str)
    (hmap : ∀ e ∈ ipMap, ∀ p ∈ e.2, p.1 ≠ addr)
    (h0 : res.find? addr = none) :
    (find_redundant_addresses ipMap targetSet res).find? addr = none := by
  unfold find_redundant_addresses
  refine foldl_pred (fun r : Results => r.find? addr = none)
    (redundantIpStep targetSet) ipMap res ?_ h0
  intro r1 entry hentry hP1
  show (redundantIpStep targetSet r1 entry).find? addr = none
  unfold redundantIpStep
  split
  · refine foldl_pred (fun r : Results => r.find? addr = none)
      (redundantTargetStep entry) targetSet r1 ?_ hP1
    intro r2 t _ hP2
    show (redundantTargetStep entry r2 t).find? addr = none
    unfold redundantTargetStep
    split
    · rename_i hany
      have hne : addr ≠ t := by
        intro he
        rcases List.any_eq_true.mp hany with ⟨p, hp, hpt⟩
        exact hmap entry hentry p hp (by rw [of_decide_eq_true hpt, ← he])
      rw [Results.find?_modify_ne _ _ _ _ hne]
      exact hP2
    · exact hP2
  · exact hP1

theorem find?_eq_some_get (t : Results) (a : Str) (h : (t.find? a).isSome) :
    t.find? a = some (t.get a) := by
  unfold Results.get
  rcases ho : t.find? a with _ | v
  · rw [ho] at h; exact absurd h (by simp)
  · rfl

theorem get_of_find?_none (t : Results) (a : Str) (h : t.find? a = none) :
    t.get a = AddressResult.default := by
  unfold Results.get
  rw [h]
  rfl

/-- The unguarded prelude of `_find_indirect_rules` materializes every
requested address (`parse.py:218-219`). -/
theorem touchAll_find?_isSome (targets : List Str) (res : Results) (a : Str)
    (h : a ∈ targets) : ((touchAll targets res).find? a).isSome := by
  induction targets generalizing res with
  | nil => exact absurd h (by simp)
  | cons t rest ih =>
      have hstep : touchAll (t :: rest) res = touchAll rest (res.touch t) := rfl
      rw [hstep]
      rcases List.mem_cons.mp h with rfl | h2
      · refine foldl_pred (fun r : Results => (r.find? a).isSome)
          (fun r b => r.touch b) rest (res.touch a) ?_ (Results.find?_touch_self res a)
        intro r b _ hP
        exact Results.find?_modify_isSome r b a id hP
      · exact ih (res.touch t) h2

/-- Every entry of the `all_groups` reverse index records a descriptor drawn
from its owner's `address_groups`. -/
theorem buildAllGroups_owners (targets : List Str) (res : Results) :
    ∀ p ∈ buildAllGroups targets res, p.2.1 ∈ (res.get p.2.2).address_groups := by
  unfold buildAllGroups
  refine foldl_pred
    (fun m : List (Str × AGInfo × Str) => ∀ p ∈ m, p.2.1 ∈ (res.get p.2.2).address_groups)
    _ targets [] ?_ (by simp)
  intro m a _ hP
  refine foldl_pred
    (fun m2 : List (Str × AGInfo × Str) => ∀ p ∈ m2, p.2.1 ∈ (res.get p.2.2).address_groups)
    _ (res.get a).address_groups m ?_ hP
  intro m2 g hg hP2 p hp
  rcases dinsert_mem m2 g.name (g, a) p hp with h2 | h2
  · exact hP2 p h2
  · rw [h2]
    exact hg

/-- The indirect resolver materializes an absent requested record with the
default value and never writes to it. -/
theorem find_indirect_find_default (fileLines targets : List Str) (res : Results)
    (addr : Str) (h0 : res.find? addr = none) (hmem : addr ∈ targets) :
    (find_indirect_rules fileLines targets res).find? addr = some AddressResult.default := by
  unfold find_indirect_rules
  dsimp only
  have htget : (touchAll targets res).get addr = AddressResult.default := by
    rw [touchAll_get, get_of_find?_none res addr h0]
  have htfind : (touchAll targets res).find? addr = some AddressResult.default := by
    rw [find?_eq_some_get _ _ (touchAll_find?_isSome targets res addr hmem), htget]
  have howner : ∀ p ∈ buildAllGroups targets (touchAll targets res), p.2.2 ≠ addr := by
    intro p hp he
    have := buildAllGroups_owners targets (touchAll targets res) p hp
    rw [he, htget] at this
    exact absurd this (by simp [AddressResult.default])
  split
  · exact htfind
  · refine foldl_pred (fun r : Results => r.find? addr = some AddressResult.default)
      (indirectLine (buildAllGroups targets (touchAll targets res))) fileLines
      (touchAll targets res) ?_ htfind
    intro r1 raw _ hP1
    show (indirectLine _ r1 raw).find? addr = some AddressResult.default
    unfold indirectLine
    dsimp only
    split
    · exact hP1
    · split
      · exact hP1
      · split
        · exact hP1
        · rename_i rule_name ctx heq
          refine foldl_pred (fun r : Results => r.find? addr = some AddressResult.default)
            (indirectGroupStep (pstrip raw) rule_name
              ((searchAll mDeviceGroupAt (pstrip raw)).getD dgUnknown)) _ r1 ?_ hP1
          intro r2 p hp hP2
          show (indirectGroupStep _ _ _ r2 p).find? addr = some AddressResult.default
          unfold indirectGroupStep
          split
          · exact hP2
          · rw [Results.find?_modify_ne _ _ _ _
              (fun he => howner p (List.mem_filter.mp hp).1 he.symm)]
            exact hP2

/-- Every member recorded in the nested-group catalogue occurs as a substring
of some input line. -/
theorem buildGroupCatalogue_members (fileLines : List Str) :
    ∀ p ∈ buildGroupCatalogue fileLines, ∀ m ∈ p.2.2, ∃ raw ∈ fileLines, m <:+: raw := by
  unfold buildGroupCatalogue
  refine foldl_pred
    (fun cat : List (Str × AGInfo × List Str) =>
      ∀ p ∈ cat, ∀ m ∈ p.2.2, ∃ raw ∈ fileLines, m <:+: raw)
    _ fileLines [] ?_ (by simp)
  intro cat raw hraw hP
  dsimp only
  split
  · exact hP
  · split
    · rename_i group_name d heq
      intro p hp m hm
      rcases dinsert_mem _ _ _ p hp with h2 | h2
      · exact hP p h2 m hm
      · subst h2
        rcases searchAll_suffix mAGSharedAt (pstrip raw) (group_name, d) heq with ⟨s2, hs2, hmm⟩
        refine ⟨raw, hraw, ?_⟩
        exact (((parse_group_members_within d m hm).trans
          (mAGSharedAt_parts s2 group_name d hmm).2).trans hs2.isInfix).trans (pstrip_within raw)
    · split
      · rename_i dg group_name d heq
        intro p hp m hm
        rcases dinsert_mem _ _ _ p hp with h2 | h2
        · exact hP p h2 m hm
        · subst h2
          rcases searchAll_suffix mAGDeviceAt (pstrip raw) (dg, group_name, d) heq with
            ⟨s2, hs2, hmm⟩
          refine ⟨raw, hraw, ?_⟩
          exact (((parse_group_members_within d m hm).trans
            (mAGDeviceAt_parts s2 dg group_name d hmm).2).trans hs2.isInfix).trans
            (pstrip_within raw)
      · exact hP

/-- The nested resolver never deems relevant, hence never writes, an address
that occurs in no input line. -/
theorem find_nested_find_phi (fileLines targets : List Str) (res : Results) (addr : Str)
    (hnone : ∀ raw ∈ fileLines, containsSub addr raw = false) :
    (find_nested_address_groups fileLines targets res).find? addr = res.find? addr := by
  unfold find_nested_address_groups
  refine foldl_phi (fun r : Results => r.find? addr)
    (nestedGroupStep (buildGroupCatalogue fileLines) targets.dedup)
    (buildGroupCatalogue fileLines) res ?_
  intro r1 entry hentry
  show (nestedGroupStep _ _ r1 entry).find? addr = r1.find? addr
  unfold nestedGroupStep
  refine foldl_phi (fun r : Results => r.find? addr) (nestedTargetStep entry.2.1) _ r1 ?_
  intro r2 t ht
  have hne : addr ≠ t := by
    intro he
    subst he
    rcases List.mem_filter.mp ht with ⟨_, hpred⟩
    rcases List.any_eq_true.mp hpred with ⟨m, hm, hcond⟩
    rcases (Bool.or_eq_true _ _).mp hcond with hc | hc
    · rcases halo : alookup (buildGroupCatalogue fileLines) m with _ | q <;>
        rw [halo] at hc
      · exact Bool.false_ne_true hc
      · have hmem2 : addr ∈ q.2 := of_decide_eq_true hc
        rcases buildGroupCatalogue_members fileLines (m, q) (alookup_mem _ m q halo)
          addr hmem2 with ⟨raw, hraw, hinf⟩
        have := (containsSub_iff addr raw).mpr hinf
        rw [hnone raw hraw] at this
        exact Bool.false_ne_true this
    · have hmaddr : m = addr := of_decide_eq_true hc
      rcases buildGroupCatalogue_members fileLines entry hentry m hm with ⟨raw, hraw, hinf⟩
      have := (containsSub_iff addr raw).mpr (hmaddr ▸ hinf)
      rw [hnone raw hraw] at this
      exact Bool.false_ne_true this
  show (nestedTargetStep _ r2 t).find? addr = r2.find? addr
  unfold nestedTargetStep
  split
  · rfl
  · exact Results.find?_modify_ne _ _ _ _ hne

/-- C8: for every target address whose name occurs as a substring of no input
line, the record after a full run exists (the key is present, holding the
factory default), its `matching_lines` is empty, and every category of the
formatted view — device groups, direct rules, indirect rules, address groups,
NAT rules, service groups, redundant addresses — is an empty collection. -/
theorem unmatched_address_empty (fileLines targets : List Str) (address : Str)
    (hmem : address ∈ targets)
    (hnone : ∀ raw ∈ fileLines, containsSub address raw = false) :
    (runStages fileLines targets).find? address = some AddressResult.default ∧
    ((runStages fileLines targets).get address).matching_lines = [] ∧
    (format_results (runStages fileLines targets) address).1 = ⟨[], [], [], [], [], [], []⟩ := by
  have h1 : (primaryScan fileLines targets.dedup).results.find? address = none :=
    primaryScan_find_none fileLines targets.dedup address hnone
  have h2 : (find_redundant_addresses (primaryScan fileLines targets.dedup).ipMap
      targets.dedup (primaryScan fileLines targets.dedup).results).find? address = none := by
    refine find_redundant_find_none _ _ _ _ ?_ h1
    rw [primaryScan_ipMap]
    exact buildIpMap_no_name fileLines address hnone
  have h3 := find_indirect_find_default fileLines targets _ address h2 hmem
  have h4 : (runStages fileLines targets).find? address = some AddressResult.default := by
    show (find_nested_address_groups fileLines targets
      (find_indirect_rules fileLines targets
        (find_redundant_addresses (primaryScan fileLines targets.dedup).ipMap
          targets.dedup (primaryScan fileLines targets.dedup).results))).find? address = _
    rw [find_nested_find_phi _ _ _ _ hnone]
    exact h3
  have hget : (runStages fileLines targets).get address = AddressResult.default := by
    unfold Results.get
    rw [h4]
    rfl
  refine ⟨h4, by rw [hget]; rfl, ?_⟩
  unfold format_results
  dsimp only
  have htg : ((runStages fileLines targets).touch address).get address
      = AddressResult.default := by
    rw [Results.get_touch]
    exact hget
  rw [htg]
  rfl

theorem unmatched_address_empty_witness :
    (runStages [("set shared address A1 ip-netmask 10.0.0.1/32".toList)]
        [("zzz".toList)]).find? ("zzz".toList) = some AddressResult.default ∧
    ((runStages [("set shared address A1 ip-netmask 10.0.0.1/32".toList)]
        [("zzz".toList)]).get ("zzz".toList)).matching_lines = [] ∧
    (format_results (runStages [("set shared address A1 ip-netmask 10.0.0.1/32".toList)]
        [("zzz".toList)]) ("zzz".toList)).1 = ⟨[], [], [], [], [], [], []⟩ :=
  unmatched_address_empty [("set shared address A1 ip-netmask 10.0.0.1/32".toList)]
    [("zzz".toList)] ("zzz".toList) (by decide) (by decide)
